import Mathlib

/-!
# ToyDB: verification of the storage and execution engine

Shallow embedding of the toydb C++ sources:
* the typed value model and condition evaluator (`src/src/db/table.cpp`,
  `src/include/db/table.h`);
* the generic B+ tree (`src/unnamed/part_001`, `BPlusTree<Key, Value, Order = 4>`);
* the table abstraction with optional primary-key index (`src/src/db/table.cpp`);
* the transaction manager (`src/src/database/transaction.hpp`, `src/unnamed/part_004`,
  `src/unnamed/part_005`).

C++ specifics are modelled explicitly: `std::get` on a mismatched `std::variant`
alternative throws `std::bad_variant_access`, so the embedding of any code path that
can reach such a `std::get` returns `Except DBErr`; reading `front()` of an empty
vector is undefined behaviour and is modelled as `Except.error`.  Machine integers
`int64_t` are modelled as `Int` (no claim exercises 64-bit wrap-around), IEEE doubles
as `Rat` (no claim exercises float payloads or NaN).
-/

set_option linter.unusedSectionVars false

set_option linter.unusedVariables false

set_option linter.unnecessarySeqFocus false

namespace ToyDB

/-! ## Value model (src/include/db/table.h, src/src/db/table.cpp lines 10-63) -/

/-- `ColumnType` enum; the order of constructors matches the C++ declaration order,
    which `values_less` uses through `static_cast<int>`. -/
inductive ColumnType where
  | Null
  | Int
  | Float
  | Text
  deriving DecidableEq, Repr

/-- Numeric value of the `ColumnType` enum tag (`static_cast<int>`). -/
def ColumnType.tag : ColumnType → Nat
  | .Null => 0
  | .Int => 1
  | .Float => 2
  | .Text => 3

/-- `DBValue = std::variant<DBNull, DBInt, DBFloat, DBText>`. -/
inductive DBValue where
  | null
  | int (z : Int)
  | flt (q : Rat)
  | text (s : String)
  deriving DecidableEq, Repr

/-- `ColumnDef` (src/include/db/table.h). -/
structure ColumnDef where
  name : String
  type : ColumnType
  primary_key : Bool
  not_null : Bool
  deriving DecidableEq, Repr

/-- `Row` is a vector of values. -/
abbrev Row := List DBValue

/-- `value_type` (table.cpp lines 10-16). -/
def value_type : DBValue → ColumnType
  | .null => .Null
  | .int _ => .Int
  | .flt _ => .Float
  | .text _ => .Text

/-- `std::holds_alternative<DBNull>`. -/
def DBValue.isNull : DBValue → Bool
  | .null => true
  | _ => false

/-- `values_equal` (table.cpp lines 36-45): different variants are never equal,
    `NULL == NULL`, same-variant payloads compare by `==`. -/
def values_equal (a b : DBValue) : Bool :=
  if value_type a ≠ value_type b then false
  else
    match a, b with
    | .null, _ => true
    | .int x, .int y => decide (x = y)
    | .flt x, .flt y => decide (x = y)
    | .text x, .text y => decide (x = y)
    | _, _ => false

/-- `values_less` (table.cpp lines 47-63): `NULL` precedes every non-`NULL` value,
    different variants compare by enum tag, same variants by payload. -/
def values_less (a b : DBValue) : Bool :=
  if a.isNull then !b.isNull
  else if b.isNull then false
  else if value_type a ≠ value_type b then
    decide ((value_type a).tag < (value_type b).tag)
  else
    match a, b with
    | .int x, .int y => decide (x < y)
    | .flt x, .flt y => decide (x < y)
    | .text x, .text y => decide (x < y)
    | _, _ => false

/-! ## Ordered index: the B+ tree (src/unnamed/part_001)

`BPlusTree<Key, Value, Order>` with the default `Order = 4`; all instantiations in
the repository use the default.  Nodes are leaves (sorted parallel key/value
vectors) or internal nodes (sorted separator keys plus children).

The C++ leaf `next` pointer is not a field of the functional model: a leaf's
`next` always points to its in-order successor leaf.  This holds initially (one
leaf, null `next`), is preserved by leaf splits (`new_leaf->next = next; next =
new_leaf` while the new leaf becomes the old leaf's right neighbour), by internal
splits and root growth (which move child pointers without creating or reordering
leaves), and by `remove` (which erases within a leaf and never unlinks).  The
chain starting at any leaf is therefore the suffix of the in-order leaf list
starting at that leaf, which is how `rangeScan` models the link-following loop.
-/

/-- The compile-time order `O` of the tree: maximum key count per node before
    splitting.  Every instantiation in the repository uses the default, 4. -/
def order : Nat := 4

/-- B+ tree node: `LeafNode` holds parallel `keys`/`values` vectors, an
    `InternalNode` holds separator `keys` and `children`. -/
inductive BT (K V : Type) where
  | leaf (keys : List K) (values : List V)
  | internal (keys : List K) (children : List (BT K V))

variable {K V : Type} [LinearOrder K]

/-- `std::lower_bound(keys.begin(), keys.end(), key) - keys.begin()`: index of the
    first element not less than `key` (the vectors are maintained sorted, so the
    binary search equals this linear characterisation). -/
def lower_bound_idx (l : List K) (k : K) : Nat :=
  match l with
  | [] => 0
  | x :: xs => if x < k then lower_bound_idx xs k + 1 else 0

/-- `std::upper_bound(keys.begin(), keys.end(), key) - keys.begin()`: index of the
    first element strictly greater than `key` (`InternalNode::find_child_index`). -/
def upper_bound_idx (l : List K) (k : K) : Nat :=
  match l with
  | [] => 0
  | x :: xs => if k < x then 0 else upper_bound_idx xs k + 1

/-- `LeafNode::insert` (part_001 lines 93-131).  Returns the updated leaf and, on
    a split, the `InsertResult` (the new right leaf's first key and the new leaf). -/
def leafInsert (ks : List K) (vs : List V) (k : K) (v : V) :
    BT K V × Option (K × BT K V) :=
  let idx := lower_bound_idx ks k
  if ks[idx]? = some k then
    -- key already exists: overwrite the value, no split
    (.leaf ks (vs.set idx v), none)
  else
    let ks1 := ks.insertIdx idx k
    let vs1 := vs.insertIdx idx v
    if order < ks1.length then
      let mid := ks1.length / 2
      match (ks1.drop mid)[0]? with
      | some sep =>
        (.leaf (ks1.take mid) (vs1.take mid),
         some (sep, .leaf (ks1.drop mid) (vs1.drop mid)))
      | none => (.leaf ks1 vs1, none)  -- unreachable: ks1.length > order ≥ 2 * mid per split
    else
      (.leaf ks1 vs1, none)

mutual

/-- `Node::insert` dispatch: `LeafNode::insert` / `InternalNode::insert`
    (part_001 lines 93-131 and 190-226). -/
def nodeInsert : BT K V → K → V → BT K V × Option (K × BT K V)
  | .leaf ks vs, k, v => leafInsert ks vs k v
  | .internal ks cs, k, v =>
    let idx := upper_bound_idx ks k
    let r := childInsert cs idx k v
    match r.2 with
    | none => (.internal ks r.1, none)
    | some (nk, nn) =>
      let ks1 := ks.insertIdx idx nk
      let cs1 := r.1.insertIdx (idx + 1) nn
      if order < ks1.length then
        let mid := ks1.length / 2
        match ks1[mid]? with
        | some midKey =>
          (.internal (ks1.take mid) (cs1.take (mid + 1)),
           some (midKey, .internal (ks1.drop (mid + 1)) (cs1.drop (mid + 1))))
        | none => (.internal ks1 cs1, none)  -- unreachable: mid < ks1.length
      else
        (.internal ks1 cs1, none)

/-- `children[idx]->insert(key, value)`: recursion into the `idx`-th child,
    rebuilding the surrounding child vector. -/
def childInsert : List (BT K V) → Nat → K → V → List (BT K V) × Option (K × BT K V)
  | [], _, _, _ => ([], none)  -- unreachable: find_child_index < children.size()
  | c :: cs, 0, k, v =>
    let r := nodeInsert c k v
    (r.1 :: cs, r.2)
  | c :: cs, n + 1, k, v =>
    let r := childInsert cs n k v
    (c :: r.1, r.2)

end

/-- `BPlusTree::insert` (part_001 lines 19-29): on a root split, allocate a new
    internal root with the separator key and the two halves as children. -/
def treeInsert (t : BT K V) (k : K) (v : V) : BT K V :=
  let r := nodeInsert t k v
  match r.2 with
  | none => r.1
  | some (nk, nn) => .internal [nk] [r.1, nn]

/-- A freshly constructed `BPlusTree`: a single empty leaf (part_001 line 16). -/
def emptyTree : BT K V := .leaf [] []

mutual

/-- `Node::find`: `LeafNode::find` (lines 133-139) / `InternalNode::find`
    (lines 228-230). -/
def nodeFind : BT K V → K → Option V
  | .leaf ks vs, k =>
    let idx := lower_bound_idx ks k
    if ks[idx]? = some k then vs[idx]? else none
  | .internal ks cs, k => childFind cs (upper_bound_idx ks k) k

/-- `children[find_child_index(key)]->find(key)`. -/
def childFind : List (BT K V) → Nat → K → Option V
  | [], _, _ => none  -- unreachable: find_child_index < children.size()
  | c :: _, 0, k => nodeFind c k
  | _ :: cs, n + 1, k => childFind cs n k

end

/-- `BPlusTree::find` (part_001 lines 32-34). -/
def treeFind (t : BT K V) (k : K) : Option V :=
  nodeFind t k

mutual

/-- `Node::remove`: `LeafNode::remove` (lines 150-159) erases the key and value if
    present; `InternalNode::remove` (lines 236-240) recurses without rebalancing. -/
def nodeRemove : BT K V → K → BT K V × Bool
  | .leaf ks vs, k =>
    let idx := lower_bound_idx ks k
    if ks[idx]? = some k then
      (.leaf (ks.eraseIdx idx) (vs.eraseIdx idx), true)
    else
      (.leaf ks vs, false)
  | .internal ks cs, k =>
    let r := childRemove cs (upper_bound_idx ks k) k
    (.internal ks r.1, r.2)

/-- `children[idx]->remove(key)`. -/
def childRemove : List (BT K V) → Nat → K → List (BT K V) × Bool
  | [], _, _ => ([], false)  -- unreachable: find_child_index < children.size()
  | c :: cs, 0, k =>
    let r := nodeRemove c k
    (r.1 :: cs, r.2)
  | c :: cs, n + 1, k =>
    let r := childRemove cs n k
    (c :: r.1, r.2)

end

/-- `BPlusTree::remove` (part_001 lines 42-50): after a successful removal, an
    internal root whose key vector is empty is replaced by its first child. -/
def treeRemove (t : BT K V) (k : K) : BT K V × Bool :=
  let r := nodeRemove t k
  match r.2, r.1 with
  | true, .internal [] (c :: _) => (c, true)
  | _, _ => r

/-! Range scan.  `leavesOf` lists the tree's leaves in order; per the `next`-link
argument above this list, from the leaf reached by the descent, is exactly the
chain the C++ loop follows. -/

mutual

/-- The leaves of the tree in left-to-right order, as (keys, values) pairs. -/
def leavesOf : BT K V → List (List K × List V)
  | .leaf ks vs => [(ks, vs)]
  | .internal _ cs => leavesOfList cs

/-- Leaves of a child list, in order. -/
def leavesOfList : List (BT K V) → List (List K × List V)
  | [] => []
  | c :: cs => leavesOf c ++ leavesOfList cs

end

mutual

/-- In-order position of the leaf that the `range_scan` descent
    (`InternalNode::range_scan`, lines 242-246) reaches for a given start key. -/
def descentIdx : BT K V → K → Nat
  | .leaf _ _, _ => 0
  | .internal ks cs, k => descentIdxList cs (upper_bound_idx ks k) k

/-- Descent position within a child list: leaves of the skipped children count
    toward the in-order position. -/
def descentIdxList : List (BT K V) → Nat → K → Nat
  | [], _, _ => 0
  | c :: _, 0, k => descentIdx c k
  | c :: cs, n + 1, k => (leavesOf c).length + descentIdxList cs n k

end

/-- The visit loop of `LeafNode::range_scan` (lines 163-167): from
    `lower_bound(start)`, visit `(key, value)` pairs while `key <= end`. -/
def leafVisits (ks : List K) (vs : List V) (start stop : K) : List (K × V) :=
  let idx := lower_bound_idx ks start
  ((ks.drop idx).zip (vs.drop idx)).takeWhile (fun p => decide (p.1 ≤ stop))

/-- The leaf-chain walk of `LeafNode::range_scan` (lines 161-173).  After visiting
    the current leaf the C++ code evaluates `next->keys.front()` whenever a next
    leaf exists; on an empty next leaf `front()` is an out-of-bounds read, which
    the model returns as `Except.error ()`. -/
def chainScan : List (List K × List V) → K → K → Except Unit (List (K × V))
  | [], _, _ => .ok []
  | (ks, vs) :: rest, start, stop =>
    let here := leafVisits ks vs start stop
    match rest with
    | [] => .ok here
    | (ks2, _) :: _ =>
      match ks2[0]? with
      | none => .error ()  -- next->keys.front() on an empty leaf: undefined behaviour
      | some front =>
        if stop ≥ front then
          match chainScan rest start stop with
          | .ok more => .ok (here ++ more)
          | .error e => .error e
        else
          .ok here

/-- `BPlusTree::range_scan(start, end, func)` (part_001 lines 52-56): descend to
    the leaf for `start`, then follow the leaf chain.  The returned list is the
    sequence of `func` invocations. -/
def rangeScan (t : BT K V) (start stop : K) : Except Unit (List (K × V)) :=
  chainScan ((leavesOf t).drop (descentIdx t start)) start stop

/-- Fold a list of pairs into the tree by repeated `BPlusTree::insert`. -/
def insertList (t : BT K V) (ps : List (K × V)) : BT K V :=
  ps.foldl (fun acc p => treeInsert acc p.1 p.2) t

/-! ## Specification-side view of the B+ tree

`entries` lists the tree's (key, value) pairs in leaf order; `listUpsert` is
insert-or-replace on an association list kept sorted by key.  The well-formedness
predicate `NodeWF lo hi t` captures the search-tree discipline that the C++
operations maintain: leaf keys strictly sorted within the half-open window
`[lo, hi)`, and internal separators partitioning strictly sorted children. -/

mutual

/-- In-order (key, value) pairs of a node. -/
def entries : BT K V → List (K × V)
  | .leaf ks vs => ks.zip vs
  | .internal _ cs => entriesList cs

/-- In-order (key, value) pairs of a child list. -/
def entriesList : List (BT K V) → List (K × V)
  | [] => []
  | c :: cs => entries c ++ entriesList cs

end

/-- The keys stored in the tree, in leaf order. -/
def keysOf (t : BT K V) : List K := (entries t).map Prod.fst

/-- The key sequence produced by starting at the leftmost leaf and following the
    `next` links, visiting each leaf's keys in order. -/
def chainKeys (t : BT K V) : List K :=
  ((leavesOf t).map Prod.fst).flatten

/-- Insert-or-replace of `(k, v)` in an association list sorted by key: walk past
    smaller keys, replace an equal key, otherwise insert before the first larger
    key. -/
def listUpsert (k : K) (v : V) : List (K × V) → List (K × V)
  | [] => [(k, v)]
  | (k0, v0) :: rest =>
    if k0 < k then (k0, v0) :: listUpsert k v rest
    else if k0 = k then (k, v) :: rest
    else (k, v) :: (k0, v0) :: rest

/-- First-match lookup in an association list. -/
def entLookup (k : K) : List (K × V) → Option V
  | [] => none
  | (k0, v0) :: rest => if k0 = k then some v0 else entLookup k rest

/-- `k` is at or above the (optional, inclusive) lower window bound. -/
def inLB (lo : Option K) (k : K) : Prop := ∀ l, lo = some l → l ≤ k

/-- `k` is strictly above the (optional) lower window bound. -/
def inSLB (lo : Option K) (k : K) : Prop := ∀ l, lo = some l → l < k

/-- `k` is strictly below the (optional, exclusive) upper window bound. -/
def inUB (hi : Option K) (k : K) : Prop := ∀ u, hi = some u → k < u

mutual

/-- Search-tree well-formedness of a node within the window `[lo, hi)`. -/
inductive NodeWF : Option K → Option K → BT K V → Prop where
  | leaf : ∀ {lo hi : Option K} {ks : List K} {vs : List V},
      List.Pairwise (· < ·) ks →
      (∀ k ∈ ks, inLB lo k ∧ inUB hi k) →
      ks.length = vs.length →
      NodeWF lo hi (.leaf ks vs)
  | internal : ∀ {lo hi : Option K} {ks : List K} {cs : List (BT K V)},
      List.Pairwise (· < ·) ks →
      ChildrenWF lo hi ks cs →
      NodeWF lo hi (.internal ks cs)

/-- The separators `ks` partition the children `cs` over the window `[lo, hi)`:
    `n` separators guard `n + 1` children, child `i` owning the window between
    the adjacent separators.  Each separator lies strictly inside the window. -/
inductive ChildrenWF : Option K → Option K → List K → List (BT K V) → Prop where
  | single : ∀ {lo hi : Option K} {c : BT K V},
      NodeWF lo hi c → ChildrenWF lo hi [] [c]
  | cons : ∀ {lo hi : Option K} {s : K} {ks : List K} {c : BT K V} {cs : List (BT K V)},
      inSLB lo s → inUB hi s →
      NodeWF lo (some s) c →
      ChildrenWF (some s) hi ks cs →
      ChildrenWF lo hi (s :: ks) (c :: cs)

end

/-- Well-formedness of the whole tree: the root carries no window bounds. -/
def rootWF (t : BT K V) : Prop := NodeWF none none t

/-- All keys of `l` strictly sorted and inside `[lo, hi)`. -/
def EntriesOK (lo hi : Option K) (l : List (K × V)) : Prop :=
  List.Pairwise (· < ·) (l.map Prod.fst) ∧ ∀ p ∈ l, inLB lo p.1 ∧ inUB hi p.1

/-- Correctness statement for `nodeInsert` on a well-formed node: the result is
    well-formed (two well-formed halves and an in-window separator on a split)
    and its entries are the upsert of the old entries. -/
def InsOK (lo hi : Option K) (k : K) (v : V) (t : BT K V) : Prop :=
  match nodeInsert t k v with
  | (t1, none) => NodeWF lo hi t1 ∧ entries t1 = listUpsert k v (entries t)
  | (t1, some (nk, nn)) =>
      NodeWF lo (some nk) t1 ∧ NodeWF (some nk) hi nn ∧
      inSLB lo nk ∧ inUB hi nk ∧
      entries t1 ++ entries nn = listUpsert k v (entries t)

/-- Correctness statement for `childInsert` at the descent index of `k`: the
    rebuilt child list (with a propagated separator and sibling spliced in on a
    split) is again a well-formed partition and its entries are the upsert. -/
def ChInsOK (lo hi : Option K) (ks : List K) (cs : List (BT K V)) (k : K) (v : V) :
    Prop :=
  match childInsert cs (upper_bound_idx ks k) k v with
  | (cs1, none) =>
      ChildrenWF lo hi ks cs1 ∧ entriesList cs1 = listUpsert k v (entriesList cs)
  | (cs1, some (nk, nn)) =>
      ChildrenWF lo hi (ks.insertIdx (upper_bound_idx ks k) nk)
        (cs1.insertIdx (upper_bound_idx ks k + 1) nn) ∧
      List.Pairwise (· < ·) (ks.insertIdx (upper_bound_idx ks k) nk) ∧
      inSLB lo nk ∧ inUB hi nk ∧
      entriesList (cs1.insertIdx (upper_bound_idx ks k + 1) nn)
        = listUpsert k v (entriesList cs)

/-! ## Table (src/src/db/table.cpp, src/include/db/table.h)

The table couples a row heap to at most one primary-key B+ tree index (an
`Int`-keyed or `Text`-keyed tree, by the primary-key column's type).  C++ control
flow that can throw `std::bad_variant_access` (a `std::get` on the wrong variant)
is modelled with `Except DBErr`; exceptions propagate, and mutations already
performed stay in place, exactly as in the C++ (which has no rollback).
Dereferencing a null index `unique_ptr` would be undefined behaviour; those
branches are marked `nullIndexDeref` and are unreachable for tables built by the
constructor.  `unordered_map` arguments are modelled as association lists with
unique keys; the C++ iteration order is unspecified, and the modelled behaviour
is order-insensitive because distinct assignments target distinct column indices. -/

/-- Exceptions escaping the engine. -/
inductive DBErr where
  | badVariantAccess
  | nullIndexDeref
  deriving DecidableEq, Repr

/-- `std::get<DBInt>`: the payload, or a thrown `std::bad_variant_access`. -/
def getDBInt : DBValue → Except DBErr Int
  | .int z => .ok z
  | _ => .error .badVariantAccess

/-- `std::get<DBText>`: the payload, or a thrown `std::bad_variant_access`. -/
def getDBText : DBValue → Except DBErr String
  | .text s => .ok s
  | _ => .error .badVariantAccess

/-- `Condition` (src/include/db/table.h): column name, operator string, value. -/
structure Condition where
  column_name : String
  op : String
  value : DBValue
  deriving DecidableEq, Repr

/-- `Condition::evaluate` (table.cpp lines 66-90): resolve the column by name
    (false when absent or out of row range), then compare with
    `values_equal`/`values_less`; unknown operators yield false. -/
def Condition.evaluate (c : Condition) (row : Row) (columns : List ColumnDef) : Bool :=
  match columns.findIdx? (fun col => col.name == c.column_name) with
  | none => false
  | some i =>
    match row[i]? with
    | none => false
    | some rv =>
      if c.op == "=" then values_equal rv c.value
      else if c.op == "!=" then !values_equal rv c.value
      else if c.op == "<" then values_less rv c.value
      else if c.op == ">" then !values_less rv c.value && !values_equal rv c.value
      else if c.op == "<=" then values_less rv c.value || values_equal rv c.value
      else if c.op == ">=" then !values_less rv c.value
      else false

/-- `Table` (src/include/db/table.h lines 56-92): name, columns, row heap, the
    position of the primary-key column, and the two optional index objects. -/
structure Table where
  name : String
  columns : List ColumnDef
  rows : List Row
  primary_key_index : Option Nat
  int_index : Option (BT Int Nat)
  text_index : Option (BT String Nat)

/-- `Table::Table` (table.cpp lines 93-110): find the first primary-key column;
    create an `Int`- or `Text`-keyed index when its type warrants one (a `Float`
    or `Null` primary key gets a position but no index object). -/
def mkTable (nm : String) (cols : List ColumnDef) : Table :=
  match cols.findIdx? (fun c => c.primary_key) with
  | none =>
    { name := nm, columns := cols, rows := [], primary_key_index := none,
      int_index := none, text_index := none }
  | some i =>
    { name := nm, columns := cols, rows := [], primary_key_index := some i,
      int_index :=
        if (cols[i]?.map (fun c => c.type)) = some ColumnType.Int
        then some emptyTree else none,
      text_index :=
        if (cols[i]?.map (fun c => c.type)) = some ColumnType.Text
        then some emptyTree else none }

/-- `Table::column_index` (table.cpp lines 112-119): linear search by name. -/
def Table.column_index (T : Table) (nm : String) : Option Nat :=
  T.columns.findIdx? (fun c => c.name == nm)

/-- `Table::row_matches` (table.cpp lines 186-196): conjunction over the
    conditions; the empty list matches. -/
def Table.row_matches (T : Table) (row : Row) (conds : List Condition) : Bool :=
  conds.all (fun c => c.evaluate row T.columns)

/-- `Table::update_index` (table.cpp lines 174-184): upsert `key → row_index` into
    the index matching the primary-key column's type, if that index exists. -/
def Table.update_index (T : Table) (key : DBValue) (row_index : Nat) :
    Except DBErr Table :=
  match T.primary_key_index with
  | none => .ok T
  | some p =>
    match T.columns[p]? with
    | none => .error .nullIndexDeref  -- columns_[*pk] out of range: unreachable
    | some pk_column =>
      match pk_column.type, T.int_index, T.text_index with
      | ColumnType.Int, some tr, _ =>
        (match getDBInt key with
         | .error e => .error e
         | .ok z => .ok { T with int_index := some (treeInsert tr z row_index) })
      | ColumnType.Text, _, some tr =>
        (match getDBText key with
         | .error e => .error e
         | .ok s => .ok { T with text_index := some (treeInsert tr s row_index) })
      | _, _, _ => .ok T

/-- The per-column validation loop of `Table::insert_row` (table.cpp lines
    129-160) over paired (column, value) starting at position `i`: NOT NULL,
    exact type match for non-Null values, and primary-key uniqueness through the
    index.  A `Null` value in the indexed primary-key column reaches
    `std::get` and throws. -/
def insertChecks (pko : Option Nat) (ii : Option (BT Int Nat))
    (ti : Option (BT String Nat)) :
    List (ColumnDef × DBValue) → Nat → Except DBErr Bool
  | [], _ => .ok true
  | (col, val) :: rest, i =>
    if col.not_null && val.isNull then .ok false
    else if !val.isNull && (value_type val != col.type) then .ok false
    else if col.primary_key && pko.isSome && (pko == some i) then
      match col.type with
      | ColumnType.Int =>
        (match getDBInt val with
         | .error e => .error e
         | .ok z =>
           match ii with
           | some tr =>
             if (treeFind tr z).isSome then .ok false
             else insertChecks pko ii ti rest (i + 1)
           | none => .error .nullIndexDeref)  -- int_index_ null deref: unreachable
      | ColumnType.Text =>
        (match getDBText val with
         | .error e => .error e
         | .ok s =>
           match ti with
           | some tr =>
             if (treeFind tr s).isSome then .ok false
             else insertChecks pko ii ti rest (i + 1)
           | none => .error .nullIndexDeref)  -- text_index_ null deref: unreachable
      | _ => insertChecks pko ii ti rest (i + 1)
    else insertChecks pko ii ti rest (i + 1)

/-- `Table::insert_row` (table.cpp lines 121-172): length check, per-column
    validation, then append the row and upsert the primary-key index.  `ok false`
    mirrors `return false`; `error` models a thrown `std::bad_variant_access`.
    The table is unchanged except on success. -/
def Table.insert_row (T : Table) (row : Row) : Table × Except DBErr Bool :=
  if row.length ≠ T.columns.length then (T, .ok false)
  else
    match insertChecks T.primary_key_index T.int_index T.text_index
        (T.columns.zip row) 0 with
    | .error e => (T, .error e)
    | .ok false => (T, .ok false)
    | .ok true =>
      let T1 := { T with rows := T.rows ++ [row] }
      match T.primary_key_index with
      | none => (T1, .ok true)
      | some p =>
        match row[p]? with
        | none => (T1, .error .nullIndexDeref)  -- row[*pk] out of range: unreachable
        | some key =>
          match T1.update_index key T.rows.length with
          | .ok T2 => (T2, .ok true)
          | .error e => (T1, .error e)

/-- `Table::select` (table.cpp lines 198-238): with a primary-key index, a single
    `=` condition on the primary-key column whose value's variant matches the
    column type is answered from the index, filtered through the position-bounds
    check `*row_idx_opt < rows_.size()`; every other shape falls back to a full
    scan preserving insertion order. -/
def Table.select (T : Table) (conds : List Condition) : List Row :=
  match T.primary_key_index, conds with
  | some p, [c] =>
    match T.columns[p]? with
    | some pk_column =>
      if c.column_name == pk_column.name && c.op == "=" then
        match pk_column.type, c.value with
        | ColumnType.Int, DBValue.int z =>
          (match T.int_index with
           | some tr =>
             match treeFind tr z with
             | some ridx => if ridx < T.rows.length then [T.rows.getD ridx []] else []
             | none => []
           | none => [])  -- int_index_ null deref: unreachable
        | ColumnType.Text, DBValue.text str =>
          (match T.text_index with
           | some tr =>
             match treeFind tr str with
             | some ridx => if ridx < T.rows.length then [T.rows.getD ridx []] else []
             | none => []
           | none => [])  -- text_index_ null deref: unreachable
        | _, _ => T.rows.filter (fun r => T.row_matches r conds)
      else T.rows.filter (fun r => T.row_matches r conds)
    | none => T.rows.filter (fun r => T.row_matches r conds)
  | _, _ => T.rows.filter (fun r => T.row_matches r conds)

/-- `Table::remove` (table.cpp lines 302-317): erase every matching row, keeping
    the relative order of survivors; the indexes are not touched.  Returns the
    table and the number of rows removed. -/
def Table.remove (T : Table) (conds : List Condition) : Table × Nat :=
  let kept := T.rows.filter (fun r => !T.row_matches r conds)
  ({ T with rows := kept }, T.rows.length - kept.length)

/-- Lookup in the resolved assignment map `col_idx_to_value`. -/
def assocFind (m : List (Nat × DBValue)) (i : Nat) : Option DBValue :=
  (m.find? (fun q => q.1 == i)).map (fun q => q.2)

/-- `col_idx_to_value[*idx] = value`: insert-or-assign into the resolved
    assignment map. -/
def assocSet (m : List (Nat × DBValue)) (i : Nat) (v : DBValue) :
    List (Nat × DBValue) :=
  if m.any (fun q => q.1 == i) then
    m.map (fun q => if q.1 == i then (i, v) else q)
  else m ++ [(i, v)]

/-- The assignment-application loop of `Table::update` (table.cpp lines 280-288):
    each field whose non-Null value's variant differs from the declared column
    type is silently skipped; the rest are written. -/
def applyAssignments (cols : List ColumnDef) (cmap : List (Nat × DBValue))
    (row : Row) : Row :=
  cmap.foldl (fun r (p : Nat × DBValue) =>
    match cols[p.1]? with
    | none => r  -- unreachable: indices come from column_index
    | some col =>
      if !p.2.isNull && (value_type p.2 != col.type) then r
      else r.set p.1 p.2) row

/-- The tail of a counted row update (table.cpp lines 279-295): apply the
    assignments, re-insert the (new) primary-key mapping when the primary key was
    among the assignments, and increment the counter. -/
def updateRowApply (cmap : List (Nat × DBValue)) (updating_pk : Bool)
    (st : Table × Nat) (i : Nat) (row : Row) : Except DBErr (Table × Nat) :=
  let row1 := applyAssignments st.1.columns cmap row
  let T1 := { st.1 with rows := st.1.rows.set i row1 }
  if updating_pk then
    match T1.primary_key_index with
    | some p =>
      match row1[p]? with
      | some key =>
        match T1.update_index key i with
        | .ok T2 => .ok (T2, st.2 + 1)
        | .error e => .error e  -- unreachable after a passed uniqueness check
      | none => .error .nullIndexDeref  -- row[*pk] out of range: unreachable
    | none => .error .nullIndexDeref  -- updating_pk implies the index position
  else .ok (T1, st.2 + 1)

/-- One iteration of the `Table::update` row loop (table.cpp lines 253-297) at row
    index `i`: a non-matching row is left alone; for a matching row, if the
    assignments touch the primary-key column the uniqueness check runs against
    the *new* key (`std::get` throws when its variant is not the key type; a hit
    on a different row index skips the row without counting it); otherwise the
    assignments are applied and the row is counted. -/
def updateRowStep (cmap : List (Nat × DBValue)) (conds : List Condition)
    (st : Table × Nat) (i : Nat) : Except DBErr (Table × Nat) :=
  match st.1.rows[i]? with
  | none => .ok st  -- unreachable: i < rows_.size()
  | some row =>
    if st.1.row_matches row conds then
      match st.1.primary_key_index with
      | some p =>
        match assocFind cmap p with
        | some newPk =>
          match st.1.columns[p]?.map (fun c => c.type) with
          | some ColumnType.Int =>
            (match getDBInt newPk with
             | .error e => .error e
             | .ok z =>
               match st.1.int_index with
               | some tr =>
                 (match treeFind tr z with
                  | some j =>
                    if j ≠ i then .ok st  -- duplicate key: skip row, do not count
                    else updateRowApply cmap true st i row
                  | none => updateRowApply cmap true st i row)
               | none => .error .nullIndexDeref)  -- unreachable
          | some ColumnType.Text =>
            (match getDBText newPk with
             | .error e => .error e
             | .ok str =>
               match st.1.text_index with
               | some tr =>
                 (match treeFind tr str with
                  | some j =>
                    if j ≠ i then .ok st
                    else updateRowApply cmap true st i row
                  | none => updateRowApply cmap true st i row)
               | none => .error .nullIndexDeref)  -- unreachable
          | _ => updateRowApply cmap true st i row
        | none => updateRowApply cmap false st i row
      | none => updateRowApply cmap false st i row
    else .ok st

/-- The row loop of `Table::update` (table.cpp lines 251-297).  An exception
    aborts the loop; rows already processed keep their updates, as in C++. -/
def updateLoop (cmap : List (Nat × DBValue)) (conds : List Condition) :
    List Nat → Table × Nat → (Table × Nat) × Option DBErr
  | [], st => (st, none)
  | i :: rest, st =>
    match updateRowStep cmap conds st i with
    | .ok st1 => updateLoop cmap conds rest st1
    | .error e => (st, some e)

/-- `Table::update` (table.cpp lines 240-300): resolve the assignment names to
    column indices (unknown names are dropped), then run the row loop.  Returns
    the table as mutated so far and the affected-row count, or the escaped
    exception. -/
def Table.update (T : Table) (updates : List (String × DBValue))
    (conds : List Condition) : Table × Except DBErr Nat :=
  let cmap := updates.foldl (fun m (p : String × DBValue) =>
    match T.column_index p.1 with
    | some idx => assocSet m idx p.2
    | none => m) []
  match updateLoop cmap conds (List.range T.rows.length) (T, 0) with
  | (st, none) => (st.1, .ok st.2)
  | (st, some e) => (st.1, .error e)

/-! ## Transactions (src/src/database/transaction.hpp, src/unnamed/part_004 and
part_005)

The transaction-aware code-base keeps its own `Table` (part_004); its `Value`
type (column.hpp is not under src/) is modelled by `DBValue` — the claims only
compare snapshots for equality, so the payload type is immaterial.  The
process-wide singletons (`TransactionManager::instance`,
`Database::instance`) become explicit state. -/

/-- `Transaction::State` (transaction.hpp lines 11-15). -/
inductive TxState where
  | ACTIVE
  | COMMITTED
  | ABORTED
  deriving DecidableEq, Repr

/-- `Transaction` (transaction.hpp lines 9-41): id, state and the pre-image map
    `table_states_` (`unordered_map<string, vector<vector<Value>>>`, modelled as
    an association list with unique keys and insert-or-assign writes). -/
structure Transaction where
  id : Nat
  state : TxState
  table_states : List (String × List Row)

/-- `table_states_[table_name] = state` (transaction.hpp line 21): `operator[]`
    followed by assignment — insert-or-assign. -/
def assocAssign (m : List (String × List Row)) (nm : String) (st : List Row) :
    List (String × List Row) :=
  if m.any (fun q => q.1 == nm) then
    m.map (fun q => if q.1 == nm then (nm, st) else q)
  else m ++ [(nm, st)]

/-- `Transaction::add_table_state` (transaction.hpp lines 19-22): unconditionally
    assign the snapshot for the table name, overwriting any previous capture. -/
def Transaction.add_table_state (t : Transaction) (nm : String) (st : List Row) :
    Transaction :=
  { t with table_states := assocAssign t.table_states nm st }

/-- `Transaction::get_table_state` (transaction.hpp lines 24-31): lookup; throws
    when no snapshot is stored.  (No code in the repository calls it.) -/
def Transaction.get_table_state (t : Transaction) (nm : String) :
    Except String (List Row) :=
  match (t.table_states.find? (fun q => q.1 == nm)).map (fun q => q.2) with
  | some st => .ok st
  | none => .error ("No state found for table " ++ nm)

/-- `TransactionManager` (transaction.hpp lines 43-94): the next id (starting at
    1) and the live transactions (`unordered_map<uint64_t, unique_ptr<Transaction>>`,
    modelled as an association list).  The mutex serialises access; the model is
    sequential.  Ids are modelled as `Nat` (the monotone counter never wraps in
    any claim's scope). -/
structure TransactionManager where
  next_transaction_id : Nat
  transactions : List (Nat × Transaction)

/-- The freshly constructed manager (transaction.hpp line 86). -/
def TransactionManager.initial : TransactionManager := ⟨1, []⟩

/-- `TransactionManager::begin_transaction` (transaction.hpp lines 50-55). -/
def TransactionManager.begin_transaction (m : TransactionManager) :
    Nat × TransactionManager :=
  let id := m.next_transaction_id
  (id, { next_transaction_id := id + 1,
         transactions := m.transactions ++ [(id, ⟨id, TxState.ACTIVE, []⟩)] })

/-- `TransactionManager::commit_transaction` (transaction.hpp lines 57-65): fail
    when the id is unknown; set the state to COMMITTED and erase the record (the
    state write is unobservable once the record is erased). -/
def TransactionManager.commit_transaction (m : TransactionManager) (id : Nat) :
    Except String TransactionManager :=
  if m.transactions.any (fun q => q.1 == id) then
    .ok { m with transactions := m.transactions.filter (fun q => !(q.1 == id)) }
  else .error ("Transaction " ++ toString id ++ " not found")

/-- `TransactionManager::abort_transaction` (transaction.hpp lines 67-75): find
    the record (failing when absent), set its state to ABORTED, erase it — and
    nothing else.  No table's row sequence is read or written, and
    `get_table_state` is never called: the captured pre-images are discarded
    exactly as on commit. -/
def TransactionManager.abort_transaction (m : TransactionManager) (id : Nat) :
    Except String TransactionManager :=
  if m.transactions.any (fun q => q.1 == id) then
    .ok { m with transactions := m.transactions.filter (fun q => !(q.1 == id)) }
  else .error ("Transaction " ++ toString id ++ " not found")

/-- `TransactionManager::get_transaction` (transaction.hpp lines 77-83). -/
def TransactionManager.get_transaction (m : TransactionManager) (id : Nat) :
    Except String Transaction :=
  match (m.transactions.find? (fun q => q.1 == id)).map (fun q => q.2) with
  | some t => .ok t
  | none => .error ("Transaction " ++ toString id ++ " not found")

/-- Column of the transaction-aware code-base's tables (part_004 uses `Column`
    from column.hpp, which is not under src/): a name and a type. -/
structure TxColumn where
  name : String
  type : ColumnType

/-- Modelled from the spec: `Column::validate_value` of the missing column.hpp.
    Per §3 a row position holds a value of the column's type, or Null; the
    surviving call sites only require that a well-typed row passes. -/
def TxColumn.validate_value (c : TxColumn) (v : DBValue) : Bool :=
  v.isNull || (value_type v == c.type)

/-- `Table` of the transaction-aware code-base (part_004 lines 11-146).  The
    `indexes_` member is omitted: its `Index` class (index.hpp) is not under
    src/ and no claim depends on it. -/
structure TxTable where
  name : String
  columns : List TxColumn
  rows : List Row

/-- The snapshot-capture block of `Table::insert`/`update`/`delete_rows`
    (part_004 lines 29-36, 53-59, 80-86): when `transaction_id > 0`, look the
    transaction up (throwing when unknown) and, if it is ACTIVE, store the
    table's current row sequence under the table's name *before* the mutation. -/
def txCapture (t : TxTable) (transaction_id : Nat) (mgr : TransactionManager) :
    Except String TransactionManager :=
  if transaction_id > 0 then
    match mgr.get_transaction transaction_id with
    | .error e => .error e
    | .ok tx =>
      if tx.state = TxState.ACTIVE then
        let txs := mgr.transactions.map (fun q =>
          if q.1 == transaction_id
          then (q.1, q.2.add_table_state t.name t.rows) else q)
        .ok { mgr with transactions := txs }
      else .ok mgr
  else .ok mgr

/-- `Table::insert` (part_004 lines 17-45), with the `TransactionManager`
    singleton passed explicitly: validate arity and value types (throwing on
    violation), capture the pre-image when under an active transaction, then
    append the row. -/
def TxTable.insert (t : TxTable) (values : Row) (transaction_id : Nat)
    (mgr : TransactionManager) : Except String (TxTable × TransactionManager) :=
  if values.length ≠ t.columns.length then
    .error "Number of values does not match number of columns"
  else if (t.columns.zip values).all (fun p => p.1.validate_value p.2) then
    match txCapture t transaction_id mgr with
    | .error e => .error e
    | .ok mgr1 => .ok ({ t with rows := t.rows ++ [values] }, mgr1)
  else .error "Invalid value type for column"

/-- The process state the transactional claims range over: the catalogue of
    transaction-aware tables (`Database::instance().tables_`) and the
    `TransactionManager` singleton. -/
structure TxSystem where
  tables : List (String × TxTable)
  mgr : TransactionManager

/-- Row insertion into a named table under a transaction id, through the system
    state (`Database::instance().get_table` + `Table::insert`). -/
def TxSystem.insertInto (s : TxSystem) (nm : String) (values : Row)
    (transaction_id : Nat) : Except String TxSystem :=
  match (s.tables.find? (fun q => q.1 == nm)).map (fun q => q.2) with
  | none => .error ("Table " ++ nm ++ " does not exist")
  | some t =>
    (t.insert values transaction_id s.mgr).map (fun r =>
      { tables := s.tables.map (fun q => if q.1 == nm then (nm, r.1) else q),
        mgr := r.2 })

/-- `Database::abort_transaction` (part_002 lines 24-26): delegate to the
    manager; the tables member is not touched. -/
def TxSystem.abort (s : TxSystem) (id : Nat) : Except String TxSystem :=
  (s.mgr.abort_transaction id).map (fun mgr1 => { s with mgr := mgr1 })

/-- The concrete C1 scenario, step 0: a `users` table holding the single row
    `[Int64 1]`, and a fresh manager after `begin_transaction` returned id 1. -/
def c1_sys1 : TxSystem :=
  { tables := [("users", ⟨"users", [⟨"id", ColumnType.Int⟩], [[DBValue.int 1]]⟩)],
    mgr := (TransactionManager.initial.begin_transaction).2 }

/-- C1 scenario after inserting `[Int64 2]` under transaction 1 (the pre-image
    of `users` is captured at this point). -/
def c1_sys2 : Except String TxSystem :=
  c1_sys1.insertInto "users" [DBValue.int 2] 1

/-- C1 scenario after `abort_transaction(1)`. -/
def c1_sys3 : Except String TxSystem :=
  c1_sys2.bind (fun s => s.abort 1)

/-! ## Reachable tables and the index invariant -/

/-- Tables built by the `Table` constructor and mutated only by `insert_row` and
    `update` — the no-`remove` fragment of the table interface.  Exceptions leave
    the partially mutated table in place (as in C++), so the reachable state is
    the `.1` component regardless of the outcome. -/
inductive ReachIU : Table → Prop where
  | create : ∀ (nm : String) (cols : List ColumnDef), ReachIU (mkTable nm cols)
  | ins : ∀ {T : Table} (row : Row), ReachIU T → ReachIU (T.insert_row row).1
  | upd : ∀ {T : Table} (updates : List (String × DBValue))
      (conds : List Condition), ReachIU T → ReachIU (T.update updates conds).1

/-- The primary-key index invariant: the primary-key position names a real
    primary-key column, and — when that column's type warrants an index — the
    index is present, well formed, and maps every live row's key payload to the
    row's current position.  (`Float`/`Null` primary keys get no index and no
    uniqueness; see table.cpp lines 101-107 and 147-159.) -/
def TInv (T : Table) : Prop :=
  ∀ p, T.primary_key_index = some p →
    ∃ col, T.columns[p]? = some col ∧ col.primary_key = true ∧
      ((col.type = ColumnType.Int ∧
        ∃ tr, T.int_index = some tr ∧ rootWF tr ∧
          ∀ i r, T.rows[i]? = some r →
            ∃ z, r[p]? = some (DBValue.int z) ∧ treeFind tr z = some i) ∨
       (col.type = ColumnType.Text ∧
        ∃ tr, T.text_index = some tr ∧ rootWF tr ∧
          ∀ i r, T.rows[i]? = some r →
            ∃ s, r[p]? = some (DBValue.text s) ∧ treeFind tr s = some i) ∨
       (col.type ≠ ColumnType.Int ∧ col.type ≠ ColumnType.Text))

/-- The shared counterexample table: a single `Int` primary-key column. -/
def cexTable0 : Table := mkTable "t" [⟨"id", ColumnType.Int, true, false⟩]

/-- `cexTable0` after inserting the rows `[1]`, `[2]`, `[3]`. -/
def cexTable3 : Table :=
  (((cexTable0.insert_row [DBValue.int 1]).1.insert_row
    [DBValue.int 2]).1.insert_row [DBValue.int 3]).1

/-- `cexTable3` after `remove` of the row with `id = 1` (the heap compacts to
    `[[2], [3]]`; the index still maps 1 ↦ 0, 2 ↦ 1, 3 ↦ 2). -/
def cexTable4 : Table := (cexTable3.remove [⟨"id", "=", DBValue.int 1⟩]).1

/-- `cexTable4` after `update id = 2 where id = 3`: the stale index entry
    `2 ↦ 1` names the row being updated itself, so the uniqueness check passes
    and the update makes both rows hold `id = 2`. -/
def cexTable5 : Table × Except DBErr Nat :=
  cexTable4.update [("id", DBValue.int 2)] [⟨"id", "=", DBValue.int 3⟩]

/-- A table for the C3 amended witness: insert `[1]`, `[2]`, then remove the
    tail row `[2]`; its stale index position 1 is now out of bounds. -/
def cexTailTable : Table :=
  (((cexTable0.insert_row [DBValue.int 1]).1.insert_row
    [DBValue.int 2]).1.remove [⟨"id", "=", DBValue.int 2⟩]).1

/-! ## Theorems: sorted association lists -/

section TreeProofs

variable {K V : Type} [LinearOrder K]

theorem listUpsert_append_left {A B : List (K × V)} {k : K} {v : V}
    (h : ∀ p ∈ A, p.1 < k) :
    listUpsert k v (A ++ B) = A ++ listUpsert k v B := by
  induction A with
  | nil => rfl
  | cons p A ih =>
    obtain ⟨k0, v0⟩ := p
    have hk0 : k0 < k := h (k0, v0) (List.mem_cons_self _ _)
    simp only [List.cons_append, listUpsert, if_pos hk0]
    exact congrArg ((k0, v0) :: ·) (ih fun q hq => h q (List.mem_cons_of_mem _ hq))

theorem listUpsert_append_gt {A B : List (K × V)} {k : K} {v : V}
    (h : ∀ p ∈ B, k < p.1) :
    listUpsert k v (A ++ B) = listUpsert k v A ++ B := by
  induction A with
  | nil =>
    cases B with
    | nil => rfl
    | cons q B =>
      obtain ⟨k0, v0⟩ := q
      have hk0 : k < k0 := h (k0, v0) (List.mem_cons_self _ _)
      simp only [List.nil_append, listUpsert, if_neg (not_lt.mpr hk0.le),
        if_neg (ne_of_gt hk0)]
      rfl
  | cons p A ih =>
    obtain ⟨k0, v0⟩ := p
    by_cases h1 : k0 < k
    · simp only [List.cons_append, listUpsert, if_pos h1]
      exact congrArg ((k0, v0) :: ·) ih
    · by_cases h2 : k0 = k
      · simp only [List.cons_append, listUpsert, if_neg h1, if_pos h2]
        rfl
      · simp only [List.cons_append, listUpsert, if_neg h1, if_neg h2]
        rfl

theorem entLookup_listUpsert_self (l : List (K × V)) (k : K) (v : V) :
    entLookup k (listUpsert k v l) = some v := by
  induction l with
  | nil => simp [listUpsert, entLookup]
  | cons p l ih =>
    obtain ⟨k0, v0⟩ := p
    by_cases h1 : k0 < k
    · simp [listUpsert, h1, entLookup, ne_of_lt h1, ih]
    · by_cases h2 : k0 = k
      · simp [listUpsert, h1, h2, entLookup]
      · simp [listUpsert, h1, h2, entLookup]

theorem entLookup_listUpsert_ne {k' k : K} (hne : k' ≠ k) (l : List (K × V)) (v : V) :
    entLookup k' (listUpsert k v l) = entLookup k' l := by
  induction l with
  | nil => simp [listUpsert, entLookup, Ne.symm hne]
  | cons p l ih =>
    obtain ⟨k0, v0⟩ := p
    by_cases h1 : k0 < k
    · simp only [listUpsert, if_pos h1, entLookup]
      by_cases h3 : k0 = k'
      · simp [h3]
      · simp [h3, ih]
    · by_cases h2 : k0 = k
      · subst h2
        simp [listUpsert, h1, entLookup, Ne.symm hne]
      · simp [listUpsert, h1, h2, entLookup, Ne.symm hne]

theorem mem_keys_listUpsert {a k : K} {v : V} {l : List (K × V)}
    (h : a ∈ (listUpsert k v l).map Prod.fst) :
    a = k ∨ a ∈ l.map Prod.fst := by
  induction l with
  | nil => simpa [listUpsert] using h
  | cons p l ih =>
    obtain ⟨k0, v0⟩ := p
    simp only [List.map_cons]
    by_cases h1 : k0 < k
    · simp only [listUpsert, if_pos h1, List.map_cons, List.mem_cons] at h
      rcases h with rfl | h
      · exact Or.inr (List.mem_cons_self _ _)
      · rcases ih h with h | h
        · exact Or.inl h
        · exact Or.inr (List.mem_cons_of_mem _ h)
    · by_cases h2 : k0 = k
      · simp only [listUpsert, if_neg h1, if_pos h2, List.map_cons, List.mem_cons] at h
        rcases h with rfl | h
        · exact Or.inl rfl
        · exact Or.inr (List.mem_cons_of_mem _ h)
      · simp only [listUpsert, if_neg h1, if_neg h2, List.map_cons, List.mem_cons] at h
        rcases h with rfl | rfl | h
        · exact Or.inl rfl
        · exact Or.inr (List.mem_cons_self _ _)
        · exact Or.inr (List.mem_cons_of_mem _ h)

theorem self_mem_keys_listUpsert (k : K) (v : V) (l : List (K × V)) :
    k ∈ (listUpsert k v l).map Prod.fst := by
  induction l with
  | nil => simp [listUpsert]
  | cons p l ih =>
    obtain ⟨k0, v0⟩ := p
    by_cases h1 : k0 < k
    · simp only [listUpsert, if_pos h1, List.map_cons, List.mem_cons]
      exact Or.inr ih
    · by_cases h2 : k0 = k
      · simp [listUpsert, h1, h2]
      · simp [listUpsert, h1, h2]

theorem keys_listUpsert_sorted {k : K} {v : V} {l : List (K × V)}
    (h : List.Pairwise (· < ·) (l.map Prod.fst)) :
    List.Pairwise (· < ·) ((listUpsert k v l).map Prod.fst) := by
  induction l with
  | nil => simp [listUpsert]
  | cons p l ih =>
    obtain ⟨k0, v0⟩ := p
    simp only [List.map_cons, List.pairwise_cons] at h
    obtain ⟨hhead, htail⟩ := h
    by_cases h1 : k0 < k
    · simp only [listUpsert, if_pos h1, List.map_cons, List.pairwise_cons]
      refine ⟨?_, ih htail⟩
      intro a ha
      rcases mem_keys_listUpsert ha with rfl | ha
      · exact h1
      · exact hhead a ha
    · by_cases h2 : k0 = k
      · subst h2
        simp only [listUpsert, if_neg h1, eq_self_iff_true, if_true, List.map_cons,
          List.pairwise_cons]
        exact ⟨hhead, htail⟩
      · have hk : k < k0 := lt_of_le_of_ne (not_lt.mp h1) (Ne.symm h2)
        simp only [listUpsert, if_neg h1, if_neg h2, List.map_cons, List.pairwise_cons]
        refine ⟨?_, hhead, htail⟩
        intro a ha
        rcases List.mem_cons.mp ha with rfl | ha
        · exact hk
        · exact lt_trans hk (hhead a ha)

theorem entLookup_append (k : K) (A B : List (K × V)) :
    entLookup k (A ++ B)
      = match entLookup k A with
        | some v => some v
        | none => entLookup k B := by
  induction A with
  | nil => simp [entLookup]
  | cons p A ih =>
    obtain ⟨k0, v0⟩ := p
    by_cases h : k0 = k
    · simp [entLookup, h]
    · simp [entLookup, h, ih]

theorem entLookup_eq_none {k : K} {l : List (K × V)} (h : ∀ p ∈ l, p.1 ≠ k) :
    entLookup k l = none := by
  induction l with
  | nil => rfl
  | cons p l ih =>
    obtain ⟨k0, v0⟩ := p
    simp only [entLookup, if_neg (h (k0, v0) (List.mem_cons_self _ _))]
    exact ih fun q hq => h q (List.mem_cons_of_mem _ hq)

/-! ## Theorems: well-formedness inversion -/

theorem nodeWF_leaf_inv {lo hi : Option K} {ks : List K} {vs : List V}
    (h : NodeWF lo hi (BT.leaf ks vs)) :
    List.Pairwise (· < ·) ks ∧ (∀ k ∈ ks, inLB lo k ∧ inUB hi k) ∧
      ks.length = vs.length := by
  cases h with
  | leaf h1 h2 h3 => exact ⟨h1, h2, h3⟩

theorem nodeWF_internal_inv {lo hi : Option K} {ks : List K} {cs : List (BT K V)}
    (h : NodeWF lo hi (BT.internal ks cs)) :
    List.Pairwise (· < ·) ks ∧ ChildrenWF lo hi ks cs := by
  cases h with
  | internal h1 h2 => exact ⟨h1, h2⟩

theorem childrenWF_nil_inv {lo hi : Option K} {ks : List K}
    (h : ChildrenWF lo hi ks ([] : List (BT K V))) : False := by
  cases h

theorem childrenWF_cons_inv {lo hi : Option K} {ks : List K} {c : BT K V}
    {cs : List (BT K V)} (h : ChildrenWF lo hi ks (c :: cs)) :
    (ks = [] ∧ cs = [] ∧ NodeWF lo hi c) ∨
      ∃ s ks', ks = s :: ks' ∧ inSLB lo s ∧ inUB hi s ∧ NodeWF lo (some s) c ∧
        ChildrenWF (some s) hi ks' cs := by
  cases h with
  | single h1 => exact Or.inl ⟨rfl, rfl, h1⟩
  | cons h1 h2 h3 h4 => exact Or.inr ⟨_, _, rfl, h1, h2, h3, h4⟩

theorem entriesList_append (a b : List (BT K V)) :
    entriesList (a ++ b) = entriesList a ++ entriesList b := by
  induction a with
  | nil => simp [entriesList]
  | cons c a ih => simp [entriesList, ih]

theorem entriesOK_append {lo hi : Option K} {s : K} {A B : List (K × V)}
    (hA : EntriesOK lo (some s) A) (hB : EntriesOK (some s) hi B)
    (hs1 : inSLB lo s) (hs2 : inUB hi s) : EntriesOK lo hi (A ++ B) := by
  obtain ⟨sA, bA⟩ := hA
  obtain ⟨sB, bB⟩ := hB
  constructor
  · rw [List.map_append]
    refine List.pairwise_append.mpr ⟨sA, sB, ?_⟩
    intro a ha b hb
    obtain ⟨p, hp, rfl⟩ := List.mem_map.mp ha
    obtain ⟨q, hq, rfl⟩ := List.mem_map.mp hb
    exact lt_of_lt_of_le ((bA p hp).2 s rfl) ((bB q hq).1 s rfl)
  · intro p hp
    rcases List.mem_append.mp hp with h | h
    · exact ⟨(bA p h).1, fun u hu => lt_trans ((bA p h).2 s rfl) (hs2 u hu)⟩
    · exact ⟨fun l hl => le_of_lt (lt_of_lt_of_le (hs1 l hl) ((bB p h).1 s rfl)),
        (bB p h).2⟩

mutual

theorem entries_ok {lo hi : Option K} {t : BT K V} (h : NodeWF lo hi t) :
    EntriesOK lo hi (entries t) := by
  match t with
  | .leaf ks vs =>
    obtain ⟨hsort, hb, hlen⟩ := nodeWF_leaf_inv h
    constructor
    · rw [show (entries (BT.leaf ks vs) : List (K × V)) = ks.zip vs from rfl,
        List.map_fst_zip ks vs (le_of_eq hlen)]
      exact hsort
    · intro p hp
      exact hb p.1 (List.of_mem_zip hp).1
  | .internal ks cs =>
    obtain ⟨hsort, hch⟩ := nodeWF_internal_inv h
    exact entriesList_ok hch

theorem entriesList_ok {lo hi : Option K} {ks : List K} {cs : List (BT K V)}
    (h : ChildrenWF lo hi ks cs) : EntriesOK lo hi (entriesList cs) := by
  match cs with
  | [] => exact absurd h childrenWF_nil_inv
  | c :: cs' =>
    rcases childrenWF_cons_inv h with ⟨-, rfl, hc⟩ | ⟨s, ks', rfl, hlo, hhi, hc, hrest⟩
    · have := entries_ok hc
      simpa [entriesList] using this
    · have H1 := entries_ok hc
      have H2 := entriesList_ok hrest
      show EntriesOK lo hi (entries c ++ entriesList cs')
      exact entriesOK_append H1 H2 hlo hhi

end

/-! ## Theorems: the leaf vector operations compute the sorted upsert -/

theorem lower_bound_le_length (l : List K) (k : K) : lower_bound_idx l k ≤ l.length := by
  induction l with
  | nil => simp [lower_bound_idx]
  | cons x xs ih =>
    by_cases hx : x < k
    · simpa [lower_bound_idx, hx] using Nat.succ_le_succ ih
    · simp [lower_bound_idx, hx]

theorem zip_take_drop {ks : List K} {vs : List V} (h : ks.length = vs.length) (m : Nat) :
    (ks.take m).zip (vs.take m) ++ (ks.drop m).zip (vs.drop m) = ks.zip vs := by
  conv_rhs => rw [← List.take_append_drop m ks, ← List.take_append_drop m vs]
  rw [List.zip_append (by simp [h])]

theorem zip_set_eq_listUpsert {k : K} {v : V} :
    ∀ (ks : List K) (vs : List V), ks.length = vs.length →
      ks[lower_bound_idx ks k]? = some k →
      ks.zip (vs.set (lower_bound_idx ks k) v) = listUpsert k v (ks.zip vs)
  | [], _, _, hget => by simp [lower_bound_idx] at hget
  | x :: xs, [], hlen, _ => by simp at hlen
  | x :: xs, y :: ys, hlen, hget => by
    by_cases hx : x < k
    · have hget' : xs[lower_bound_idx xs k]? = some k := by
        simpa [lower_bound_idx, hx] using hget
      have ih := zip_set_eq_listUpsert (k := k) (v := v) xs ys (by simpa using hlen) hget'
      simp only [lower_bound_idx, if_pos hx, List.set_cons_succ, List.zip_cons_cons,
        listUpsert]
      exact congrArg _ ih
    · have h0 : lower_bound_idx (x :: xs) k = 0 := by simp [lower_bound_idx, hx]
      have hxk : x = k := by
        rw [h0] at hget
        simpa using hget
      subst hxk
      rw [h0]
      simp only [listUpsert, List.zip_cons_cons, List.set_cons_zero, lt_irrefl, if_false,
        eq_self_iff_true, if_true]
      rfl

theorem zip_insertIdx_eq_listUpsert {k : K} {v : V} :
    ∀ (ks : List K) (vs : List V), ks.length = vs.length →
      ¬ks[lower_bound_idx ks k]? = some k →
      (ks.insertIdx (lower_bound_idx ks k) k).zip
          (vs.insertIdx (lower_bound_idx ks k) v)
        = listUpsert k v (ks.zip vs)
  | [], [], _, _ => by simp [lower_bound_idx, listUpsert]
  | [], _ :: _, hlen, _ => by simp at hlen
  | x :: xs, [], hlen, _ => by simp at hlen
  | x :: xs, y :: ys, hlen, hget => by
    by_cases hx : x < k
    · have hget' : ¬xs[lower_bound_idx xs k]? = some k := by
        intro hc
        exact hget (by simpa [lower_bound_idx, hx] using hc)
      have ih := zip_insertIdx_eq_listUpsert (k := k) (v := v) xs ys (by simpa using hlen) hget'
      simp only [lower_bound_idx, if_pos hx, List.insertIdx_succ_cons, List.zip_cons_cons,
        listUpsert]
      exact congrArg _ ih
    · have h0 : lower_bound_idx (x :: xs) k = 0 := by simp [lower_bound_idx, hx]
      have hne : x ≠ k := by
        intro he
        exact hget (by rw [h0]; simpa using he)
      rw [h0]
      simp only [List.insertIdx_zero, listUpsert, List.zip_cons_cons, if_neg hx,
        if_neg hne]
      rfl

theorem entLookup_zip {k : K} :
    ∀ (ks : List K) (vs : List V), List.Pairwise (· < ·) ks → ks.length = vs.length →
      entLookup k (ks.zip vs)
        = if ks[lower_bound_idx ks k]? = some k then vs[lower_bound_idx ks k]? else none
  | [], [], _, _ => by simp [entLookup, lower_bound_idx]
  | [], _ :: _, _, hlen => by simp at hlen
  | x :: xs, [], _, hlen => by simp at hlen
  | x :: xs, y :: ys, hsort, hlen => by
    by_cases hx : x < k
    · have ih := entLookup_zip (k := k) xs ys hsort.of_cons (by simpa using hlen)
      simp only [lower_bound_idx, if_pos hx, List.zip_cons_cons, entLookup,
        if_neg (ne_of_lt hx), List.getElem?_cons_succ]
      exact ih
    · have h0 : lower_bound_idx (x :: xs) k = 0 := by simp [lower_bound_idx, hx]
      rw [h0]
      by_cases hxk : x = k
      · subst hxk
        simp [entLookup, List.zip_cons_cons]
      · have hgt : k < x := lt_of_le_of_ne (not_lt.mp hx) (Ne.symm hxk)
        have hrest : entLookup k (xs.zip ys) = none := by
          refine entLookup_eq_none ?_
          intro p hp
          have hmem : p.1 ∈ xs := (List.of_mem_zip (a := p.1) (b := p.2) (by simpa using hp)).1
          have := List.rel_of_pairwise_cons hsort hmem
          exact ne_of_gt (lt_trans hgt this)
        have hne2 : ¬((x :: xs)[0]? = some k) := by simpa using hxk
        rw [if_neg hne2]
        simp only [List.zip_cons_cons, entLookup, if_neg hxk]
        exact hrest

theorem leaf_split_pieces {lo hi : Option K} {ks1 : List K} {vs1 : List V} {mid : Nat}
    (hsort1 : List.Pairwise (· < ·) ks1)
    (hbnd1 : ∀ a ∈ ks1, inLB lo a ∧ inUB hi a)
    (hlen1 : ks1.length = vs1.length)
    (hmid1 : 1 ≤ mid) (hmidlt : mid < ks1.length)
    {sep : K} (hsep : (ks1.drop mid)[0]? = some sep) :
    NodeWF lo (some sep) (BT.leaf (ks1.take mid) (vs1.take mid)) ∧
      NodeWF (some sep) hi (BT.leaf (ks1.drop mid) (vs1.drop mid)) ∧
      inSLB lo sep ∧ inUB hi sep := by
  have hsepmem : sep ∈ ks1.drop mid := List.mem_iff_getElem?.mpr ⟨0, hsep⟩
  have hsepks : sep ∈ ks1 := (List.drop_sublist mid ks1).mem hsepmem
  have hsep_of_take : ∀ a ∈ ks1.take mid, a < sep := fun a ha =>
    List.Pairwise.rel_of_mem_take_of_mem_drop hsort1 ha hsepmem
  have hsep_le_drop : ∀ b ∈ ks1.drop mid, sep ≤ b := by
    cases hd : ks1.drop mid with
    | nil => rw [hd] at hsep; simp at hsep
    | cons a rest =>
      rw [hd] at hsep
      have ha : a = sep := by simpa using hsep
      subst ha
      intro b hb
      rcases List.mem_cons.mp hb with rfl | hb
      · exact le_refl b
      · have hpd : List.Pairwise (· < ·) (ks1.drop mid) :=
          List.Pairwise.sublist (List.drop_sublist _ _) hsort1
        rw [hd] at hpd
        exact le_of_lt (List.rel_of_pairwise_cons hpd hb)
  have htk_lens : (ks1.take mid).length = (vs1.take mid).length := by
    simp [hlen1]
  have hdp_lens : (ks1.drop mid).length = (vs1.drop mid).length := by
    simp [hlen1]
  refine ⟨?_, ?_, ?_, (hbnd1 sep hsepks).2⟩
  · refine NodeWF.leaf (List.Pairwise.sublist (List.take_sublist _ _) hsort1) ?_ htk_lens
    intro a ha
    refine ⟨(hbnd1 a ((List.take_sublist _ _).mem ha)).1, ?_⟩
    intro u hu
    cases hu
    exact hsep_of_take a ha
  · refine NodeWF.leaf (List.Pairwise.sublist (List.drop_sublist _ _) hsort1) ?_ hdp_lens
    intro b hb
    refine ⟨?_, (hbnd1 b ((List.drop_sublist _ _).mem hb)).2⟩
    intro l hl
    cases hl
    exact hsep_le_drop b hb
  · intro l hl
    obtain ⟨a0, ha0⟩ : ∃ a0, (ks1.take mid)[0]? = some a0 := by
      have : 0 < (ks1.take mid).length := by
        rw [List.length_take]
        omega
      exact ⟨_, List.getElem?_eq_getElem this⟩
    have ha0t : a0 ∈ ks1.take mid := List.mem_iff_getElem?.mpr ⟨0, ha0⟩
    have h1 : l ≤ a0 := (hbnd1 a0 ((List.take_sublist _ _).mem ha0t)).1 l hl
    exact lt_of_le_of_lt h1 (hsep_of_take a0 ha0t)

theorem leafInsert_ok {lo hi : Option K} {ks : List K} {vs : List V} {k : K} {v : V}
    (h : NodeWF lo hi (BT.leaf ks vs)) (hk1 : inLB lo k) (hk2 : inUB hi k) :
    InsOK lo hi k v (BT.leaf ks vs) := by
  obtain ⟨hsort, hb, hlen⟩ := nodeWF_leaf_inv h
  have hnode : nodeInsert (BT.leaf ks vs) k v = leafInsert ks vs k v := by
    simp [nodeInsert]
  by_cases hfound : ks[lower_bound_idx ks k]? = some k
  · have hres : leafInsert ks vs k v
        = (BT.leaf ks (vs.set (lower_bound_idx ks k) v), none) := by
      simp only [leafInsert, if_pos hfound]
    unfold InsOK
    rw [hnode, hres]
    refine ⟨NodeWF.leaf hsort hb (by simpa using hlen), ?_⟩
    show ks.zip (vs.set (lower_bound_idx ks k) v) = listUpsert k v (ks.zip vs)
    exact zip_set_eq_listUpsert ks vs hlen hfound
  · have hidx : lower_bound_idx ks k ≤ ks.length := lower_bound_le_length ks k
    have hzip : (ks.insertIdx (lower_bound_idx ks k) k).zip
        (vs.insertIdx (lower_bound_idx ks k) v) = listUpsert k v (ks.zip vs) :=
      zip_insertIdx_eq_listUpsert ks vs hlen hfound
    have hlen1 : (ks.insertIdx (lower_bound_idx ks k) k).length
        = (vs.insertIdx (lower_bound_idx ks k) v).length := by
      rw [List.length_insertIdx _ _ hidx, List.length_insertIdx _ _ (hlen ▸ hidx), hlen]
    have hkeys1 : (ks.insertIdx (lower_bound_idx ks k) k)
        = (listUpsert k v (ks.zip vs)).map Prod.fst := by
      rw [← hzip, List.map_fst_zip _ _ (le_of_eq hlen1)]
    have hsort0 : List.Pairwise (· < ·) ((ks.zip vs).map Prod.fst) := by
      rw [List.map_fst_zip ks vs (le_of_eq hlen)]
      exact hsort
    have hsort1 : List.Pairwise (· < ·) (ks.insertIdx (lower_bound_idx ks k) k) := by
      rw [hkeys1]
      exact keys_listUpsert_sorted hsort0
    have hbnd1 : ∀ a ∈ ks.insertIdx (lower_bound_idx ks k) k, inLB lo a ∧ inUB hi a := by
      intro a ha
      rw [hkeys1] at ha
      rcases mem_keys_listUpsert ha with rfl | ha
      · exact ⟨hk1, hk2⟩
      · rw [List.map_fst_zip ks vs (le_of_eq hlen)] at ha
        exact hb a ha
    by_cases horder : order < (ks.insertIdx (lower_bound_idx ks k) k).length
    · have hlen5 : 5 ≤ (ks.insertIdx (lower_bound_idx ks k) k).length := horder
      have hmidlt : (ks.insertIdx (lower_bound_idx ks k) k).length / 2
          < (ks.insertIdx (lower_bound_idx ks k) k).length :=
        Nat.div_lt_self (by omega) (by norm_num)
      have hmid1 : 1 ≤ (ks.insertIdx (lower_bound_idx ks k) k).length / 2 := by
        omega
      obtain ⟨sep, hsep⟩ : ∃ sep,
          ((ks.insertIdx (lower_bound_idx ks k) k).drop
            ((ks.insertIdx (lower_bound_idx ks k) k).length / 2))[0]? = some sep := by
        have : 0 < ((ks.insertIdx (lower_bound_idx ks k) k).drop
            ((ks.insertIdx (lower_bound_idx ks k) k).length / 2)).length := by
          rw [List.length_drop]
          omega
        exact ⟨_, List.getElem?_eq_getElem this⟩
      have hres : leafInsert ks vs k v
          = (BT.leaf
              ((ks.insertIdx (lower_bound_idx ks k) k).take
                ((ks.insertIdx (lower_bound_idx ks k) k).length / 2))
              ((vs.insertIdx (lower_bound_idx ks k) v).take
                ((ks.insertIdx (lower_bound_idx ks k) k).length / 2)),
             some (sep, BT.leaf
              ((ks.insertIdx (lower_bound_idx ks k) k).drop
                ((ks.insertIdx (lower_bound_idx ks k) k).length / 2))
              ((vs.insertIdx (lower_bound_idx ks k) v).drop
                ((ks.insertIdx (lower_bound_idx ks k) k).length / 2)))) := by
        simp only [leafInsert, if_neg hfound, if_pos horder, hsep]
      obtain ⟨h1, h2, h3, h4⟩ :=
        leaf_split_pieces hsort1 hbnd1 hlen1 hmid1 hmidlt hsep
      unfold InsOK
      rw [hnode, hres]
      refine ⟨h1, h2, h3, h4, ?_⟩
      show ((ks.insertIdx (lower_bound_idx ks k) k).take _).zip
            ((vs.insertIdx (lower_bound_idx ks k) v).take _)
          ++ ((ks.insertIdx (lower_bound_idx ks k) k).drop _).zip
            ((vs.insertIdx (lower_bound_idx ks k) v).drop _)
          = listUpsert k v (ks.zip vs)
      rw [zip_take_drop hlen1]
      exact hzip
    · have hres : leafInsert ks vs k v
          = (BT.leaf (ks.insertIdx (lower_bound_idx ks k) k)
              (vs.insertIdx (lower_bound_idx ks k) v), none) := by
        simp only [leafInsert, if_neg hfound, if_neg horder]
      unfold InsOK
      rw [hnode, hres]
      exact ⟨NodeWF.leaf hsort1 hbnd1 hlen1, hzip⟩

/-! ## Theorems: internal-node helpers -/

theorem upper_bound_le_length (l : List K) (k : K) : upper_bound_idx l k ≤ l.length := by
  induction l with
  | nil => simp [upper_bound_idx]
  | cons x xs ih =>
    by_cases hx : k < x
    · simp [upper_bound_idx, hx]
    · simpa [upper_bound_idx, hx] using Nat.succ_le_succ ih

theorem childrenWF_sep_bounds {lo hi : Option K} :
    ∀ {ks : List K} {cs : List (BT K V)}, ChildrenWF lo hi ks cs →
      ∀ s ∈ ks, inSLB lo s ∧ inUB hi s := by
  intro ks
  induction ks generalizing lo with
  | nil =>
    intro cs _ s hs
    simp at hs
  | cons s0 ks' ih =>
    intro cs hch s hs
    cases cs with
    | nil => exact absurd hch childrenWF_nil_inv
    | cons c cs' =>
      rcases childrenWF_cons_inv hch with ⟨heq, -, -⟩ | ⟨s1, ks1, heq, hs1, hs2, hc, hrest⟩
      · exact absurd heq (by simp)
      · injection heq with he1 he2
        subst he1
        subst he2
        rcases List.mem_cons.mp hs with rfl | hs
        · exact ⟨hs1, hs2⟩
        · have := ih hrest s hs
          refine ⟨?_, this.2⟩
          intro l hl
          exact lt_trans (hs1 l hl) (this.1 s0 rfl)

theorem childrenWF_split {lo hi : Option K} :
    ∀ (m : Nat) {ks : List K} {cs : List (BT K V)},
      ChildrenWF lo hi ks cs → List.Pairwise (· < ·) ks →
      ∀ {mk : K}, ks[m]? = some mk →
      ChildrenWF lo (some mk) (ks.take m) (cs.take (m + 1)) ∧
        ChildrenWF (some mk) hi (ks.drop (m + 1)) (cs.drop (m + 1)) := by
  intro m
  induction m generalizing lo with
  | zero =>
    intro ks cs hch hsort mk hmk
    cases cs with
    | nil => exact absurd hch childrenWF_nil_inv
    | cons c cs' =>
      rcases childrenWF_cons_inv hch with ⟨rfl, -, -⟩ | ⟨s1, ks1, rfl, hs1, hs2, hc, hrest⟩
      · simp at hmk
      · have : s1 = mk := by simpa using hmk
        subst this
        exact ⟨ChildrenWF.single hc, by simpa using hrest⟩
  | succ m ih =>
    intro ks cs hch hsort mk hmk
    cases cs with
    | nil => exact absurd hch childrenWF_nil_inv
    | cons c cs' =>
      rcases childrenWF_cons_inv hch with ⟨rfl, -, -⟩ | ⟨s1, ks1, rfl, hs1, hs2, hc, hrest⟩
      · simp at hmk
      · have hmk' : ks1[m]? = some mk := by simpa using hmk
        have hmkmem : mk ∈ ks1 := List.mem_iff_getElem?.mpr ⟨m, hmk'⟩
        have hs1mk : s1 < mk := List.rel_of_pairwise_cons hsort hmkmem
        obtain ⟨hleft, hright⟩ := ih hrest (List.Pairwise.of_cons hsort) hmk'
        refine ⟨?_, by simpa using hright⟩
        simp only [List.take_succ_cons, List.take]
        exact ChildrenWF.cons hs1 (fun u hu => by cases hu; exact hs1mk) hc hleft

/-! ## Theorems: `insert` preserves well-formedness and computes the upsert -/

mutual

theorem nodeInsert_ok {lo hi : Option K} {t : BT K V} {k : K} {v : V}
    (h : NodeWF lo hi t) (hk1 : inLB lo k) (hk2 : inUB hi k) :
    InsOK lo hi k v t := by
  cases t with
  | leaf ks vs => exact leafInsert_ok h hk1 hk2
  | internal ks cs =>
    obtain ⟨hsort, hch⟩ := nodeWF_internal_inv h
    have H := childInsert_ok (v := v) hch hsort hk1 hk2
    unfold ChInsOK at H
    unfold InsOK
    rcases hr : childInsert cs (upper_bound_idx ks k) k v with ⟨cs1, res⟩
    rw [hr] at H
    cases res with
    | none =>
      have hres : nodeInsert (BT.internal ks cs) k v = (BT.internal ks cs1, none) := by
        simp only [nodeInsert, hr]
      rw [hres]
      obtain ⟨hch1, hent⟩ := H
      exact ⟨NodeWF.internal hsort hch1, by simpa [entries] using hent⟩
    | some p =>
      obtain ⟨nk, nn⟩ := p
      obtain ⟨hch1, hsort1, hnk1, hnk2, hent⟩ := H
      by_cases horder : order < (ks.insertIdx (upper_bound_idx ks k) nk).length
      · have hmidlt : (ks.insertIdx (upper_bound_idx ks k) nk).length / 2
            < (ks.insertIdx (upper_bound_idx ks k) nk).length :=
          Nat.div_lt_self (by unfold order at horder; omega) (by norm_num)
        obtain ⟨midKey, hmk⟩ : ∃ mk,
            (ks.insertIdx (upper_bound_idx ks k) nk)[(ks.insertIdx
              (upper_bound_idx ks k) nk).length / 2]? = some mk :=
          ⟨_, List.getElem?_eq_getElem hmidlt⟩
        have hres : nodeInsert (BT.internal ks cs) k v
            = (BT.internal
                ((ks.insertIdx (upper_bound_idx ks k) nk).take
                  ((ks.insertIdx (upper_bound_idx ks k) nk).length / 2))
                ((cs1.insertIdx (upper_bound_idx ks k + 1) nn).take
                  ((ks.insertIdx (upper_bound_idx ks k) nk).length / 2 + 1)),
               some (midKey, BT.internal
                ((ks.insertIdx (upper_bound_idx ks k) nk).drop
                  ((ks.insertIdx (upper_bound_idx ks k) nk).length / 2 + 1))
                ((cs1.insertIdx (upper_bound_idx ks k + 1) nn).drop
                  ((ks.insertIdx (upper_bound_idx ks k) nk).length / 2 + 1)))) := by
          simp only [nodeInsert, hr, if_pos horder, hmk]
        rw [hres]
        obtain ⟨hsplitL, hsplitR⟩ := childrenWF_split _ hch1 hsort1 hmk
        have hmkb := childrenWF_sep_bounds hch1 midKey (List.mem_iff_getElem?.mpr ⟨_, hmk⟩)
        refine ⟨?_, ?_, hmkb.1, hmkb.2, ?_⟩
        · exact NodeWF.internal
            (List.Pairwise.sublist (List.take_sublist _ _) hsort1) hsplitL
        · exact NodeWF.internal
            (List.Pairwise.sublist (List.drop_sublist _ _) hsort1) hsplitR
        · show entriesList ((cs1.insertIdx (upper_bound_idx ks k + 1) nn).take
                ((ks.insertIdx (upper_bound_idx ks k) nk).length / 2 + 1))
              ++ entriesList ((cs1.insertIdx (upper_bound_idx ks k + 1) nn).drop
                ((ks.insertIdx (upper_bound_idx ks k) nk).length / 2 + 1))
              = listUpsert k v (entries (BT.internal ks cs))
          rw [← entriesList_append, List.take_append_drop]
          simpa [entries] using hent
      · have hres : nodeInsert (BT.internal ks cs) k v
            = (BT.internal (ks.insertIdx (upper_bound_idx ks k) nk)
                (cs1.insertIdx (upper_bound_idx ks k + 1) nn), none) := by
          simp only [nodeInsert, hr, if_neg horder]
        rw [hres]
        exact ⟨NodeWF.internal hsort1 hch1, by simpa [entries] using hent⟩

theorem childInsert_ok {lo hi : Option K} {ks : List K} {cs : List (BT K V)} {k : K}
    {v : V} (hch : ChildrenWF lo hi ks cs) (hsort : List.Pairwise (· < ·) ks)
    (hk1 : inLB lo k) (hk2 : inUB hi k) :
    ChInsOK lo hi ks cs k v := by
  cases cs with
  | nil => exact absurd hch childrenWF_nil_inv
  | cons c cs' =>
    rcases childrenWF_cons_inv hch with ⟨rfl, rfl, hc⟩ | ⟨s, ks', rfl, hs1, hs2, hc, hrest⟩
    · have IH := nodeInsert_ok (v := v) hc hk1 hk2
      unfold InsOK at IH
      unfold ChInsOK
      rcases hr : nodeInsert c k v with ⟨c1, res⟩
      rw [hr] at IH
      cases res with
      | none =>
        have hres : childInsert [c] (upper_bound_idx ([] : List K) k) k v
            = ([c1], none) := by
          simp [childInsert, upper_bound_idx, hr]
        rw [hres]
        obtain ⟨hwf1, hent⟩ := IH
        exact ⟨ChildrenWF.single hwf1, by simpa [entriesList] using hent⟩
      | some p =>
        obtain ⟨nk, nn⟩ := p
        have hres : childInsert [c] (upper_bound_idx ([] : List K) k) k v
            = ([c1], some (nk, nn)) := by
          simp [childInsert, upper_bound_idx, hr]
        rw [hres]
        obtain ⟨hwfL, hwfR, hb1, hb2, hent⟩ := IH
        refine ⟨?_, ?_, hb1, hb2, ?_⟩
        · show ChildrenWF lo hi [nk] [c1, nn]
          exact ChildrenWF.cons hb1 hb2 hwfL (ChildrenWF.single hwfR)
        · show List.Pairwise (· < ·) [nk]
          simp
        · show entriesList [c1, nn] = listUpsert k v (entriesList [c])
          simpa [entriesList] using hent
    · by_cases hks : k < s
      · have hk2' : inUB (some s) k := fun u hu => by cases hu; exact hks
        have IH := nodeInsert_ok (v := v) hc hk1 hk2'
        unfold InsOK at IH
        unfold ChInsOK
        have hup : upper_bound_idx (s :: ks') k = 0 := by
          simp [upper_bound_idx, hks]
        rw [hup]
        rcases hr : nodeInsert c k v with ⟨c1, res⟩
        rw [hr] at IH
        have hgt : ∀ p ∈ entriesList cs', k < p.1 := by
          intro p hp
          have := (entriesList_ok hrest).2 p hp
          exact lt_of_lt_of_le hks (this.1 s rfl)
        cases res with
        | none =>
          have hres : childInsert (c :: cs') 0 k v = (c1 :: cs', none) := by
            simp [childInsert, hr]
          rw [hres]
          obtain ⟨hwf1, hent⟩ := IH
          refine ⟨ChildrenWF.cons hs1 hs2 hwf1 hrest, ?_⟩
          show entries c1 ++ entriesList cs'
            = listUpsert k v (entries c ++ entriesList cs')
          rw [listUpsert_append_gt hgt, hent]
        | some p =>
          obtain ⟨nk, nn⟩ := p
          have hres : childInsert (c :: cs') 0 k v = (c1 :: cs', some (nk, nn)) := by
            simp [childInsert, hr]
          rw [hres]
          obtain ⟨hwfL, hwfR, hb1, hb2, hent⟩ := IH
          have hnks : nk < s := hb2 s rfl
          refine ⟨?_, ?_, hb1, ?_, ?_⟩
          · show ChildrenWF lo hi (nk :: s :: ks') (c1 :: nn :: cs')
            refine ChildrenWF.cons hb1 (fun u hu => lt_trans hnks (hs2 u hu)) hwfL ?_
            exact ChildrenWF.cons (fun l hl => by cases hl; exact hnks) hs2 hwfR hrest
          · show List.Pairwise (· < ·) (nk :: s :: ks')
            refine List.pairwise_cons.mpr ⟨?_, hsort⟩
            intro a ha
            rcases List.mem_cons.mp ha with rfl | ha
            · exact hnks
            · exact lt_trans hnks (List.rel_of_pairwise_cons hsort ha)
          · exact fun u hu => lt_trans hnks (hs2 u hu)
          · show entriesList (c1 :: nn :: cs')
              = listUpsert k v (entriesList (c :: cs'))
            show entries c1 ++ (entries nn ++ entriesList cs')
              = listUpsert k v (entries c ++ entriesList cs')
            rw [← List.append_assoc, listUpsert_append_gt hgt, hent]
      · have hk1' : inLB (some s) k := fun l hl => by cases hl; exact not_lt.mp hks
        have IH := childInsert_ok (v := v) hrest (List.Pairwise.of_cons hsort) hk1' hk2
        unfold ChInsOK at IH
        unfold ChInsOK
        have hup : upper_bound_idx (s :: ks') k = upper_bound_idx ks' k + 1 := by
          simp [upper_bound_idx, hks]
        rw [hup]
        rcases hr : childInsert cs' (upper_bound_idx ks' k) k v with ⟨cs1, res⟩
        rw [hr] at IH
        have hlt : ∀ p ∈ entries c, p.1 < k := by
          intro p hp
          have := (entries_ok hc).2 p hp
          exact lt_of_lt_of_le (this.2 s rfl) (not_lt.mp hks)
        cases res with
        | none =>
          have hres : childInsert (c :: cs') (upper_bound_idx ks' k + 1) k v
              = (c :: cs1, none) := by
            simp [childInsert, hr]
          rw [hres]
          obtain ⟨hchI, hent⟩ := IH
          refine ⟨ChildrenWF.cons hs1 hs2 hc hchI, ?_⟩
          show entries c ++ entriesList cs1
            = listUpsert k v (entries c ++ entriesList cs')
          rw [listUpsert_append_left hlt, hent]
        | some p =>
          obtain ⟨nk, nn⟩ := p
          have hres : childInsert (c :: cs') (upper_bound_idx ks' k + 1) k v
              = (c :: cs1, some (nk, nn)) := by
            simp [childInsert, hr]
          rw [hres]
          obtain ⟨hchI, hsortI, hb1, hb2, hent⟩ := IH
          have hsnk : s < nk := hb1 s rfl
          refine ⟨?_, ?_, ?_, hb2, ?_⟩
          · show ChildrenWF lo hi (s :: ks'.insertIdx (upper_bound_idx ks' k) nk)
                (c :: cs1.insertIdx (upper_bound_idx ks' k + 1) nn)
            exact ChildrenWF.cons hs1 hs2 hc hchI
          · show List.Pairwise (· < ·) (s :: ks'.insertIdx (upper_bound_idx ks' k) nk)
            refine List.pairwise_cons.mpr ⟨?_, hsortI⟩
            intro a ha
            have hle : upper_bound_idx ks' k ≤ ks'.length := upper_bound_le_length ks' k
            rcases (List.mem_insertIdx hle).mp ha with rfl | ha
            · exact hsnk
            · exact List.rel_of_pairwise_cons hsort ha
          · exact fun l hl => lt_trans (hs1 l hl) hsnk
          · show entries c ++ entriesList (cs1.insertIdx (upper_bound_idx ks' k + 1) nn)
              = listUpsert k v (entries c ++ entriesList cs')
            rw [listUpsert_append_left hlt, hent]

end

/-! ## Theorems: `find` correctness, `remove` preservation, root-level facts -/

mutual

theorem nodeFind_ok {lo hi : Option K} {t : BT K V} {k : K} (h : NodeWF lo hi t) :
    nodeFind t k = entLookup k (entries t) := by
  cases t with
  | leaf ks vs =>
    obtain ⟨hsort, hb, hlen⟩ := nodeWF_leaf_inv h
    show (if ks[lower_bound_idx ks k]? = some k then vs[lower_bound_idx ks k]? else none)
      = entLookup k (ks.zip vs)
    rw [entLookup_zip ks vs hsort hlen]
  | internal ks cs =>
    obtain ⟨hsort, hch⟩ := nodeWF_internal_inv h
    show childFind cs (upper_bound_idx ks k) k = entLookup k (entriesList cs)
    exact childFind_ok hch

theorem childFind_ok {lo hi : Option K} {ks : List K} {cs : List (BT K V)} {k : K}
    (hch : ChildrenWF lo hi ks cs) :
    childFind cs (upper_bound_idx ks k) k = entLookup k (entriesList cs) := by
  cases cs with
  | nil => exact absurd hch childrenWF_nil_inv
  | cons c cs' =>
    rcases childrenWF_cons_inv hch with ⟨rfl, rfl, hc⟩ | ⟨s, ks', rfl, hs1, hs2, hc, hrest⟩
    · show nodeFind c k = entLookup k (entries c ++ [])
      rw [List.append_nil]
      exact nodeFind_ok hc
    · by_cases hks : k < s
      · have hup : upper_bound_idx (s :: ks') k = 0 := by
          simp [upper_bound_idx, hks]
        rw [hup]
        show nodeFind c k = entLookup k (entries c ++ entriesList cs')
        have hnone : entLookup k (entriesList cs') = none := by
          refine entLookup_eq_none ?_
          intro p hp
          have := ((entriesList_ok hrest).2 p hp).1 s rfl
          exact ne_of_gt (lt_of_lt_of_le hks this)
        rw [entLookup_append, hnone, nodeFind_ok hc]
        cases entLookup k (entries c) <;> rfl
      · have hup : upper_bound_idx (s :: ks') k = upper_bound_idx ks' k + 1 := by
          simp [upper_bound_idx, hks]
        rw [hup]
        show childFind cs' (upper_bound_idx ks' k) k
          = entLookup k (entries c ++ entriesList cs')
        have hnone : entLookup k (entries c) = none := by
          refine entLookup_eq_none ?_
          intro p hp
          have := ((entries_ok hc).2 p hp).2 s rfl
          exact ne_of_lt (lt_of_lt_of_le this (not_lt.mp hks))
        rw [entLookup_append, hnone, childFind_ok hrest]

end

mutual

theorem nodeRemove_wf {lo hi : Option K} {t : BT K V} {k : K} (h : NodeWF lo hi t) :
    NodeWF lo hi (nodeRemove t k).1 := by
  cases t with
  | leaf ks vs =>
    obtain ⟨hsort, hb, hlen⟩ := nodeWF_leaf_inv h
    by_cases hfound : ks[lower_bound_idx ks k]? = some k
    · have hres : nodeRemove (BT.leaf ks vs) k
          = (BT.leaf (ks.eraseIdx (lower_bound_idx ks k))
              (vs.eraseIdx (lower_bound_idx ks k)), true) := by
        simp only [nodeRemove, if_pos hfound]
      rw [hres]
      have hidx : lower_bound_idx ks k < ks.length :=
        (List.getElem?_eq_some.mp hfound).1
      refine NodeWF.leaf
        (List.Pairwise.sublist (List.eraseIdx_sublist _ _) hsort)
        (fun a ha => hb a ((List.eraseIdx_sublist _ _).mem ha)) ?_
      rw [List.length_eraseIdx_of_lt hidx, List.length_eraseIdx_of_lt (hlen ▸ hidx), hlen]
    · have hres : nodeRemove (BT.leaf ks vs) k = (BT.leaf ks vs, false) := by
        simp only [nodeRemove, if_neg hfound]
      rw [hres]
      exact h
  | internal ks cs =>
    obtain ⟨hsort, hch⟩ := nodeWF_internal_inv h
    have hres : (nodeRemove (BT.internal ks cs) k).1
        = BT.internal ks (childRemove cs (upper_bound_idx ks k) k).1 := by
      simp only [nodeRemove]
    rw [hres]
    exact NodeWF.internal hsort (childRemove_wf (upper_bound_idx ks k) hch)

theorem childRemove_wf {lo hi : Option K} {ks : List K} {cs : List (BT K V)} {k : K}
    (idx : Nat) (hch : ChildrenWF lo hi ks cs) :
    ChildrenWF lo hi ks (childRemove cs idx k).1 := by
  cases cs with
  | nil => exact absurd hch childrenWF_nil_inv
  | cons c cs' =>
    rcases childrenWF_cons_inv hch with ⟨rfl, rfl, hc⟩ | ⟨s, ks', rfl, hs1, hs2, hc, hrest⟩
    · cases idx with
      | zero =>
        show ChildrenWF lo hi [] [(nodeRemove c k).1]
        exact ChildrenWF.single (nodeRemove_wf hc)
      | succ n =>
        show ChildrenWF lo hi [] (c :: (childRemove [] n k).1)
        exact ChildrenWF.single hc
    · cases idx with
      | zero =>
        show ChildrenWF lo hi (s :: ks') ((nodeRemove c k).1 :: cs')
        exact ChildrenWF.cons hs1 hs2 (nodeRemove_wf hc) hrest
      | succ n =>
        show ChildrenWF lo hi (s :: ks') (c :: (childRemove cs' n k).1)
        exact ChildrenWF.cons hs1 hs2 hc (childRemove_wf n hrest)

end

theorem rootWF_emptyTree : rootWF (emptyTree : BT K V) :=
  NodeWF.leaf (by simp) (by simp) rfl

theorem inLB_none (k : K) : inLB none k := fun _ hl => by cases hl

theorem inUB_none (k : K) : inUB none k := fun _ hu => by cases hu

theorem inSLB_none (k : K) : inSLB none k := fun _ hl => by cases hl

theorem treeInsert_ok {t : BT K V} (h : rootWF t) (k : K) (v : V) :
    rootWF (treeInsert t k v) ∧ entries (treeInsert t k v) = listUpsert k v (entries t)
    := by
  have H := nodeInsert_ok (v := v) h (inLB_none k) (inUB_none k)
  unfold InsOK at H
  rcases hr : nodeInsert t k v with ⟨t1, res⟩
  rw [hr] at H
  cases res with
  | none =>
    have hres : treeInsert t k v = t1 := by simp only [treeInsert, hr]
    rw [hres]
    exact H
  | some p =>
    obtain ⟨nk, nn⟩ := p
    obtain ⟨hL, hR, hb1, hb2, hent⟩ := H
    have hres : treeInsert t k v = BT.internal [nk] [t1, nn] := by
      simp only [treeInsert, hr]
    rw [hres]
    constructor
    · exact NodeWF.internal (by simp)
        (ChildrenWF.cons (inSLB_none nk) (inUB_none nk) hL (ChildrenWF.single hR))
    · show entriesList [t1, nn] = listUpsert k v (entries t)
      show entries t1 ++ (entries nn ++ []) = listUpsert k v (entries t)
      rw [List.append_nil]
      exact hent

theorem treeRemove_rootWF {t : BT K V} (h : rootWF t) (k : K) :
    rootWF (treeRemove t k).1 := by
  have H := nodeRemove_wf (k := k) h
  unfold treeRemove
  rcases hr : nodeRemove t k with ⟨t1, res⟩
  rw [hr] at H
  cases res with
  | false => exact H
  | true =>
    cases t1 with
    | leaf ks vs => exact H
    | internal ks cs =>
      cases ks with
      | cons s ks' => exact H
      | nil =>
        cases cs with
        | nil => exact H
        | cons c rest =>
          show rootWF c
          obtain ⟨-, hch⟩ := nodeWF_internal_inv H
          rcases childrenWF_cons_inv hch with ⟨-, -, hc⟩ | ⟨s, ks1, heq, -, -, -, -⟩
          · exact hc
          · exact absurd heq (by simp)

theorem treeFind_treeInsert {t : BT K V} (h : rootWF t) (k k' : K) (v : V) :
    treeFind (treeInsert t k v) k' = if k' = k then some v else treeFind t k' := by
  obtain ⟨hwf1, hent⟩ := treeInsert_ok h k v
  unfold treeFind
  rw [nodeFind_ok hwf1, nodeFind_ok h, hent]
  by_cases hk : k' = k
  · subst hk
    rw [if_pos rfl]
    exact entLookup_listUpsert_self _ _ _
  · rw [if_neg hk]
    exact entLookup_listUpsert_ne hk _ _

theorem keysOf_sorted {t : BT K V} (h : rootWF t) :
    List.Pairwise (· < ·) (keysOf t) :=
  (entries_ok h).1

mutual

theorem chainKeys_eq_keysOf {lo hi : Option K} {t : BT K V} (h : NodeWF lo hi t) :
    chainKeys t = keysOf t := by
  cases t with
  | leaf ks vs =>
    obtain ⟨-, -, hlen⟩ := nodeWF_leaf_inv h
    show [ks].flatten = (ks.zip vs).map Prod.fst
    rw [List.map_fst_zip ks vs (le_of_eq hlen)]
    simp
  | internal ks cs =>
    obtain ⟨-, hch⟩ := nodeWF_internal_inv h
    show ((leavesOfList cs).map Prod.fst).flatten = (entriesList cs).map Prod.fst
    exact chainKeysList_eq hch

theorem chainKeysList_eq {lo hi : Option K} {ks : List K} {cs : List (BT K V)}
    (hch : ChildrenWF lo hi ks cs) :
    ((leavesOfList cs).map Prod.fst).flatten = (entriesList cs).map Prod.fst := by
  cases cs with
  | nil => exact absurd hch childrenWF_nil_inv
  | cons c cs' =>
    rcases childrenWF_cons_inv hch with ⟨rfl, rfl, hc⟩ | ⟨s, ks', rfl, -, -, hc, hrest⟩
    · show ((leavesOf c ++ []).map Prod.fst).flatten = (entries c ++ []).map Prod.fst
      rw [List.append_nil, List.append_nil]
      exact chainKeys_eq_keysOf hc
    · show ((leavesOf c ++ leavesOfList cs').map Prod.fst).flatten
        = (entries c ++ entriesList cs').map Prod.fst
      have h1 := chainKeys_eq_keysOf hc
      have h2 := chainKeysList_eq hrest
      unfold chainKeys keysOf at h1
      rw [List.map_append, List.flatten_append, List.map_append, h1, h2]

end

theorem insertList_rootWF (ps : List (K × V)) :
    ∀ {t : BT K V}, rootWF t → rootWF (insertList t ps) := by
  induction ps with
  | nil => intro t h; exact h
  | cons p ps ih =>
    intro t h
    show rootWF (insertList (treeInsert t p.1 p.2) ps)
    exact ih ((treeInsert_ok h p.1 p.2).1)

end TreeProofs

/-! ## Claim theorems about the B+ tree -/

/-- C7: for every sequence of B+ tree insertions of pairwise-distinct keys into an
initially empty tree of order 4, a traversal that starts at the leftmost leaf and
follows the next-leaf links yields the stored keys in strictly ascending order. -/
theorem C7_insert_chain_strictly_ascending {K V : Type} [LinearOrder K]
    (ps : List (K × V)) (hnd : (ps.map Prod.fst).Nodup) :
    List.Pairwise (· < ·) (chainKeys (insertList (emptyTree (K := K) (V := V)) ps)) := by
  have hwf := insertList_rootWF ps (rootWF_emptyTree (K := K) (V := V))
  rw [chainKeys_eq_keysOf hwf]
  exact keysOf_sorted hwf

theorem C7_insert_chain_strictly_ascending_witness :
    (([((2 : Int), (0 : Int)), (1, 1), (3, 2)].map Prod.fst).Nodup) ∧
      List.Pairwise (· < ·)
        (chainKeys (insertList (emptyTree (K := Int) (V := Int))
          [(2, 0), (1, 1), (3, 2)])) :=
  ⟨by decide, C7_insert_chain_strictly_ascending [(2, 0), (1, 1), (3, 2)] (by decide)⟩

/-- C8: starting from an empty B+ tree of order 4, after inserting the keys
1, 3, 5, 7, 9, 11, 13 in that order, `range_scan(4, 10, visit)` invokes `visit`
exactly three times, on keys 5, 7 and 9 in that ascending order and on no other
keys.  The returned list is the sequence of `visit` invocations. -/
theorem C8_range_scan_visits_5_7_9 :
    rangeScan (insertList (emptyTree (K := Int) (V := Int))
        [(1, 10), (3, 30), (5, 50), (7, 70), (9, 90), (11, 110), (13, 130)]) 4 10
      = Except.ok [(5, 50), (7, 70), (9, 90)] := rfl

/-- C9: on any well-formed tree (the well-formedness `rootWF` holds for the empty
tree and is preserved by `insert` and `remove`), `insert(k, v)` then `find(k)`
returns `v`; a subsequent `insert(k, v2)` makes `find(k)` return `v2`; and the
insertion never creates a duplicate entry: `k` occurs exactly once among the
stored keys. -/
theorem C9_upsert_find {K V : Type} [LinearOrder K] {t : BT K V} (hwf : rootWF t)
    (k : K) (v v2 : V) :
    treeFind (treeInsert t k v) k = some v ∧
      treeFind (treeInsert (treeInsert t k v) k v2) k = some v2 ∧
      (keysOf (treeInsert t k v)).count k = 1 := by
  obtain ⟨hwf1, hent1⟩ := treeInsert_ok hwf k v
  refine ⟨?_, ?_, ?_⟩
  · rw [treeFind_treeInsert hwf k k v, if_pos rfl]
  · rw [treeFind_treeInsert hwf1 k k v2, if_pos rfl]
  · have hsorted := keysOf_sorted hwf1
    have hnd : (keysOf (treeInsert t k v)).Nodup := hsorted.imp ne_of_lt
    have hmem : k ∈ keysOf (treeInsert t k v) := by
      unfold keysOf
      rw [hent1]
      exact self_mem_keys_listUpsert k v (entries t)
    exact List.count_eq_one_of_mem hnd hmem

theorem C9_upsert_find_witness :
    rootWF (treeInsert (emptyTree (K := Int) (V := Int)) 1 10) ∧
      (treeFind (treeInsert (treeInsert (emptyTree (K := Int) (V := Int)) 1 10) 2 20) 2
          = some 20 ∧
        treeFind (treeInsert (treeInsert (treeInsert (emptyTree (K := Int) (V := Int))
            1 10) 2 20) 2 25) 2 = some 25 ∧
        (keysOf (treeInsert (treeInsert (emptyTree (K := Int) (V := Int)) 1 10) 2 20)).count 2
          = 1) :=
  ⟨(treeInsert_ok rootWF_emptyTree 1 10).1,
   C9_upsert_find (treeInsert_ok rootWF_emptyTree 1 10).1 2 20 25⟩

/-- C10 failing input: insert 1..5 into an empty order-4 tree (splitting into
leaves `[1, 2]` and `[3, 4, 5]`), then remove 3, 4 and 5, leaving the second
leaf empty but still linked; `range_scan(1, 10)` then evaluates
`next->keys.front()` on the empty leaf — an out-of-bounds read, returned here
as `Except.error ()` — even though `find` remains correct on the same tree. -/
theorem C10_range_scan_reads_empty_next_leaf :
    rangeScan
        ((treeRemove ((treeRemove ((treeRemove (insertList
            (emptyTree (K := Int) (V := Int))
            [(1, 1), (2, 2), (3, 3), (4, 4), (5, 5)]) 3).1) 4).1) 5).1)
        1 10 = Except.error () ∧
      treeFind
        ((treeRemove ((treeRemove ((treeRemove (insertList
            (emptyTree (K := Int) (V := Int))
            [(1, 1), (2, 2), (3, 3), (4, 4), (5, 5)]) 3).1) 4).1) 5).1)
        1 = some 1 ∧
      treeFind
        ((treeRemove ((treeRemove ((treeRemove (insertList
            (emptyTree (K := Int) (V := Int))
            [(1, 1), (2, 2), (3, 3), (4, 4), (5, 5)]) 3).1) 4).1) 5).1)
        3 = none :=
  ⟨rfl, rfl, rfl⟩

/-! ## Theorems: transactions (C1, C4) -/

theorem assocAssign_cons_ne {q : String × List Row} {m : List (String × List Row)}
    {nm : String} {st : List Row} (hq : (q.1 == nm) = false) :
    assocAssign (q :: m) nm st = q :: assocAssign m nm st := by
  unfold assocAssign
  simp only [List.any_cons, hq, Bool.false_or]
  by_cases h : (m.any fun r => r.1 == nm) = true
  · rw [if_pos h, if_pos h, List.map_cons, if_neg (by simp [hq])]
  · rw [if_neg h, if_neg h, List.cons_append]

theorem assocAssign_find_self (m : List (String × List Row)) (nm : String)
    (st : List Row) :
    ((assocAssign m nm st).find? (fun q => q.1 == nm)).map (fun q => q.2)
      = some st := by
  induction m with
  | nil => simp [assocAssign]
  | cons q m ih =>
    by_cases hq : (q.1 == nm) = true
    · have hany : ((q :: m).any fun r => r.1 == nm) = true := by
        simp [List.any_cons, hq]
      unfold assocAssign
      rw [if_pos hany, List.map_cons, if_pos hq,
        List.find?_cons_of_pos _ (by simp)]
      rfl
    · rw [assocAssign_cons_ne (by simpa using hq)]
      rw [List.find?_cons_of_neg _ (by simpa using hq)]
      exact ih

theorem find_map_assign_preserve {m : List (String × List Row)} {nm nm' : String}
    {st : List Row} (hne : ¬nm' = nm) :
    ((m.map (fun r => if r.1 == nm then (nm, st) else r)).find?
        (fun q => q.1 == nm')).map (fun q => q.2)
      = (m.find? (fun q => q.1 == nm')).map (fun q => q.2) := by
  have hne' : ¬nm = nm' := fun h => hne h.symm
  induction m with
  | nil => rfl
  | cons r m ih =>
    by_cases hr : (r.1 == nm) = true
    · have hrnm : r.1 = nm := by simpa using hr
      have h1 : ((nm, st).1 == nm') = false := by simp [hne']
      have h2 : (r.1 == nm') = false := by simp [hrnm, hne']
      simp only [List.map_cons, hr, if_true]
      rw [List.find?_cons_of_neg _ (by simp [hne']),
        List.find?_cons_of_neg _ (by simp [hrnm, hne'])]
      exact ih
    · simp only [List.map_cons, hr, Bool.false_eq_true, if_false]
      by_cases h3 : (r.1 == nm') = true
      · rw [@List.find?_cons_of_pos _ (fun q => q.1 == nm') r _ h3,
          @List.find?_cons_of_pos _ (fun q => q.1 == nm') r _ h3]
      · rw [List.find?_cons_of_neg _ (by simpa using h3),
          List.find?_cons_of_neg _ (by simpa using h3)]
        exact ih

theorem assocAssign_find_other {m : List (String × List Row)} {nm nm' : String}
    {st : List Row} (hne : ¬nm' = nm) :
    ((assocAssign m nm st).find? (fun q => q.1 == nm')).map (fun q => q.2)
      = (m.find? (fun q => q.1 == nm')).map (fun q => q.2) := by
  have hne' : ¬nm = nm' := fun h => hne h.symm
  unfold assocAssign
  by_cases h : (m.any fun r => r.1 == nm) = true
  · rw [if_pos h]
    exact find_map_assign_preserve hne
  · rw [if_neg h, List.find?_append]
    have hone : ([((nm, st) : String × List Row)].find? (fun q => q.1 == nm'))
        = none := by
      simp [hne']
    rw [hone]
    cases m.find? (fun q => q.1 == nm') <;> rfl

/-- C1: for every table T and every Active transaction t that has captured a
pre-image snapshot of T, `abort_transaction(t)` is claimed to replace T's current
row sequence with that snapshot before removing the transaction record.  The
code does not: this theorem runs the failing input — `users` holds `[[1]]`,
transaction 1 inserts `[2]` (capturing the pre-image `[[1]]`) and is then
aborted — and shows the abort succeeds, erases the record, and leaves the rows
at `[[1], [2]]`, bit-for-bit untouched rather than restored to the snapshot. -/
theorem C1_abort_transaction_does_not_restore :
    c1_sys2.map (fun s => (s.tables.map (fun q => q.2.rows),
        s.mgr.transactions.map (fun q => q.2.table_states)))
      = Except.ok ([[[DBValue.int 1], [DBValue.int 2]]],
          [[("users", [[DBValue.int 1]])]]) ∧
      c1_sys3.map (fun s => (s.tables.map (fun q => q.2.rows),
          s.mgr.transactions.length))
        = Except.ok ([[[DBValue.int 1], [DBValue.int 2]]], 0) :=
  ⟨rfl, rfl⟩

/-- C4 counterexample: a second pre-image capture for the same table name does
not leave the stored snapshot unchanged — after capturing `[[1]]` and then
`[[1], [2]]` for `users`, the stored snapshot is the second state. -/
theorem C4_second_capture_overwrites :
    (((⟨1, TxState.ACTIVE, []⟩ : Transaction).add_table_state "users"
          [[DBValue.int 1]]).add_table_state "users"
          [[DBValue.int 1], [DBValue.int 2]]).table_states
        = [("users", [[DBValue.int 1], [DBValue.int 2]])] ∧
      [[DBValue.int 1], [DBValue.int 2]] ≠ ([[DBValue.int 1]] : List Row) :=
  ⟨rfl, by decide⟩

/-- C4 amended: every pre-image capture overwrites the stored snapshot for that
table (last-write wins): after `add_table_state nm st` the stored snapshot for
`nm` is exactly `st`, whatever was stored before, and snapshots of other tables
are untouched.  Combined with the capture-before-mutation call sites, the
snapshot reflects the table's state before the transaction's most recent
mutation of it, not the first. -/
theorem C4_amended_capture_last_write_wins (t : Transaction) (nm nm' : String)
    (st : List Row) :
    (t.add_table_state nm st).get_table_state nm = Except.ok st ∧
      (¬nm' = nm → (t.add_table_state nm st).get_table_state nm'
        = t.get_table_state nm') := by
  constructor
  · unfold Transaction.get_table_state Transaction.add_table_state
    rw [assocAssign_find_self]
  · intro hne
    unfold Transaction.get_table_state Transaction.add_table_state
    rw [assocAssign_find_other hne]

theorem C4_amended_capture_last_write_wins_witness :
    (¬"other" = "users") ∧
      (((⟨1, TxState.ACTIVE, []⟩ : Transaction).add_table_state "users"
          [[DBValue.int 7]]).get_table_state "users"
        = Except.ok [[DBValue.int 7]] ∧
      (¬"other" = "users" →
        ((⟨1, TxState.ACTIVE, []⟩ : Transaction).add_table_state "users"
            [[DBValue.int 7]]).get_table_state "other"
          = (⟨1, TxState.ACTIVE, []⟩ : Transaction).get_table_state "other")) :=
  ⟨by decide,
   C4_amended_capture_last_write_wins ⟨1, TxState.ACTIVE, []⟩ "users" "other"
     [[DBValue.int 7]]⟩

/-! ## Theorems: table claims (counterexamples and C3) -/

/-- C2 counterexample: insert `[1]`, `[2]`, `[3]` into an `Int` primary-key
table, remove `id = 1` (compacting the heap without touching the index), then
`update id = 2 where id = 3`: the stale index entry `2 ↦ 1` points at the row
being updated itself, so the uniqueness check passes and afterwards both live
rows hold the primary-key value 2. -/
theorem C2_remove_then_update_duplicates_pk :
    cexTable5.1.rows = [[DBValue.int 2], [DBValue.int 2]] ∧
      cexTable5.2 = Except.ok 1 ∧
      cexTable5.1.primary_key_index = some 0 :=
  ⟨rfl, rfl, rfl⟩

/-- C3 counterexample: after insert `[1]`, `[2]`, `[3]` and remove of `id = 1`,
the heap is `[[2], [3]]` but the index still maps `1 ↦ 0`; `select id = 1`
passes the bounds check (`0 < 2`) and returns the other live row `[2]` instead
of the empty set. -/
theorem C3_stale_entry_returns_other_row :
    cexTable4.select [⟨"id", "=", DBValue.int 1⟩] = [[DBValue.int 2]] ∧
      cexTable4.rows = [[DBValue.int 2], [DBValue.int 3]] ∧
      (cexTable3.remove [⟨"id", "=", DBValue.int 1⟩]).2 = 1 :=
  ⟨rfl, rfl, rfl⟩

/-- C3 amended: a primary-key-equality `select` whose index lookup lands on a
stale position is treated as "not found" precisely when that position fails the
bounds check against the current row count; a stale position that is still
within bounds is resolved to whatever row now occupies it, which can be a
different live row. -/
theorem C3_amended_bounds_check (T : Table) (p : Nat) (pk_column : ColumnDef)
    (z : Int) (tr : BT Int Nat) (ridx : Nat)
    (hp : T.primary_key_index = some p)
    (hcol : T.columns[p]? = some pk_column)
    (hty : pk_column.type = ColumnType.Int)
    (hidx : T.int_index = some tr)
    (hfind : treeFind tr z = some ridx) :
    (T.rows.length ≤ ridx →
      T.select [⟨pk_column.name, "=", DBValue.int z⟩] = []) ∧
    (ridx < T.rows.length →
      T.select [⟨pk_column.name, "=", DBValue.int z⟩] = [T.rows.getD ridx []]) := by
  have hsel : T.select [⟨pk_column.name, "=", DBValue.int z⟩]
      = if ridx < T.rows.length then [T.rows.getD ridx []] else [] := by
    unfold Table.select
    rw [hp]
    simp only [hcol, hty, hidx, hfind, beq_self_eq_true, Bool.and_self, if_true]
  constructor
  · intro hoob
    rw [hsel, if_neg (not_lt.mpr hoob)]
  · intro hin
    rw [hsel, if_pos hin]

theorem C3_amended_bounds_check_witness :
    cexTailTable.primary_key_index = some 0 ∧
      ((cexTailTable.rows.length ≤ 1 →
        cexTailTable.select [⟨"id", "=", DBValue.int 2⟩] = []) ∧
      (1 < cexTailTable.rows.length →
        cexTailTable.select [⟨"id", "=", DBValue.int 2⟩]
          = [cexTailTable.rows.getD 1 []])) :=
  ⟨rfl,
   C3_amended_bounds_check cexTailTable 0 ⟨"id", ColumnType.Int, true, false⟩
     2 ((treeInsert (treeInsert emptyTree 1 0) 2 1)) 1 rfl rfl rfl rfl rfl⟩

/-! ## Theorems: `insert_row` structure -/

theorem zip_getElem_some {α β : Type} {l1 : List α} {l2 : List β} :
    ∀ {i : Nat} {a : α} {b : β}, l1[i]? = some a → l2[i]? = some b →
      (l1.zip l2)[i]? = some (a, b) := by
  induction l1 generalizing l2 with
  | nil => intro i a b h1; simp at h1
  | cons x xs ih =>
    intro i a b h1 h2
    cases l2 with
    | nil => simp at h2
    | cons y ys =>
      cases i with
      | zero =>
        simp only [List.getElem?_cons_zero, Option.some.injEq] at h1 h2
        simp [List.zip_cons_cons, h1, h2]
      | succ n =>
        simp only [List.getElem?_cons_succ] at h1 h2
        simpa [List.zip_cons_cons] using ih h1 h2

theorem insertChecks_ok_true_at {pko : Option Nat} {ii : Option (BT Int Nat)}
    {ti : Option (BT String Nat)} :
    ∀ (l : List (ColumnDef × DBValue)) (i0 : Nat),
      insertChecks pko ii ti l i0 = .ok true →
      ∀ j col v, l[j]? = some (col, v) →
        ((col.primary_key && pko.isSome && (pko == some (i0 + j))) = true →
          (col.type = ColumnType.Int →
            ∃ z tr, v = DBValue.int z ∧ ii = some tr ∧ treeFind tr z = none) ∧
          (col.type = ColumnType.Text →
            ∃ s tr, v = DBValue.text s ∧ ti = some tr ∧ treeFind tr s = none)) := by
  intro l
  induction l with
  | nil =>
    intro i0 hok j col v hj
    simp at hj
  | cons cv rest ih =>
    intro i0 hok j col v hj
    obtain ⟨col0, v0⟩ := cv
    unfold insertChecks at hok
    by_cases h1 : (col0.not_null && v0.isNull) = true
    · rw [if_pos h1] at hok
      simp at hok
    · rw [if_neg h1] at hok
      by_cases h2 : (!v0.isNull && (value_type v0 != col0.type)) = true
      · rw [if_pos h2] at hok
        simp at hok
      · rw [if_neg h2] at hok
        by_cases h3 : (col0.primary_key && pko.isSome && (pko == some i0)) = true
        · rw [if_pos h3] at hok
          cases j with
          | zero =>
            simp only [List.getElem?_cons_zero, Option.some.injEq] at hj
            injection hj with hj1 hj2
            subst hj1
            subst hj2
            intro hpk
            cases hty : col0.type with
            | Int =>
              rw [hty] at hok
              constructor
              · intro _
                cases hz : getDBInt v0 with
                | error e => rw [hz] at hok; simp at hok
                | ok z =>
                  rw [hz] at hok
                  cases hii : ii with
                  | none => rw [hii] at hok; simp at hok
                  | some tr =>
                    rw [hii] at hok
                    by_cases hf : (treeFind tr z).isSome = true
                    · simp [hf] at hok
                    · refine ⟨z, tr, ?_, rfl, ?_⟩
                      · cases v0 <;> simp [getDBInt] at hz <;> simp [hz]
                      · cases hfv : treeFind tr z with
                        | none => rfl
                        | some w => rw [hfv] at hf; simp at hf
              · intro hc
                exact absurd hc (by decide)
            | Text =>
              rw [hty] at hok
              constructor
              · intro hc
                exact absurd hc (by decide)
              · intro _
                cases hz : getDBText v0 with
                | error e => rw [hz] at hok; simp at hok
                | ok str =>
                  rw [hz] at hok
                  cases hti : ti with
                  | none => rw [hti] at hok; simp at hok
                  | some tr =>
                    rw [hti] at hok
                    by_cases hf : (treeFind tr str).isSome = true
                    · simp [hf] at hok
                    · refine ⟨str, tr, ?_, rfl, ?_⟩
                      · cases v0 <;> simp [getDBText] at hz <;> simp [hz]
                      · cases hfv : treeFind tr str with
                        | none => rfl
                        | some w => rw [hfv] at hf; simp at hf
            | Null =>
              exact ⟨fun hc => absurd hc (by decide), fun hc => absurd hc (by decide)⟩
            | Float =>
              exact ⟨fun hc => absurd hc (by decide), fun hc => absurd hc (by decide)⟩
          | succ n =>
            simp only [List.getElem?_cons_succ] at hj
            have hrest : insertChecks pko ii ti rest (i0 + 1) = .ok true := by
              cases hty : col0.type with
              | Int =>
                rw [hty] at hok
                cases hz : getDBInt v0 with
                | error e => rw [hz] at hok; simp at hok
                | ok z =>
                  rw [hz] at hok
                  cases hii : ii with
                  | none => rw [hii] at hok; simp at hok
                  | some tr =>
                    rw [hii] at hok
                    by_cases hf : (treeFind tr z).isSome = true
                    · simp [hf] at hok
                    · simpa [hf] using hok
              | Text =>
                rw [hty] at hok
                cases hz : getDBText v0 with
                | error e => rw [hz] at hok; simp at hok
                | ok str =>
                  rw [hz] at hok
                  cases hti : ti with
                  | none => rw [hti] at hok; simp at hok
                  | some tr =>
                    rw [hti] at hok
                    by_cases hf : (treeFind tr str).isSome = true
                    · simp [hf] at hok
                    · simpa [hf] using hok
              | Null => rw [hty] at hok; exact hok
              | Float => rw [hty] at hok; exact hok
            have := ih (i0 + 1) hrest n col v hj
            intro hpk
            have hsh : i0 + 1 + n = i0 + (n + 1) := by omega
            rw [hsh] at this
            exact this hpk
        · rw [if_neg h3] at hok
          cases j with
          | zero =>
            simp only [List.getElem?_cons_zero, Option.some.injEq] at hj
            injection hj with hj1 hj2
            subst hj1
            subst hj2
            intro hpk
            rw [Nat.add_zero] at hpk
            exact absurd hpk h3
          | succ n =>
            simp only [List.getElem?_cons_succ] at hj
            have := ih (i0 + 1) hok n col v hj
            intro hpk
            have hsh : i0 + 1 + n = i0 + (n + 1) := by omega
            rw [hsh] at this
            exact this hpk

theorem update_index_int {T : Table} {k : DBValue} {r : Nat} {tr : BT Int Nat}
    {p : Nat} {col : ColumnDef} {z : Int}
    (hp : T.primary_key_index = some p) (hcol : T.columns[p]? = some col)
    (hty : col.type = ColumnType.Int) (hii : T.int_index = some tr)
    (hkey : k = DBValue.int z) :
    T.update_index k r = .ok { T with int_index := some (treeInsert tr z r) }
    := by
  subst hkey
  unfold Table.update_index
  simp only [hp, hcol, hty, hii, getDBInt]

theorem update_index_text {T : Table} {k : DBValue} {r : Nat}
    {tr : BT String Nat} {p : Nat} {col : ColumnDef} {s : String}
    (hp : T.primary_key_index = some p) (hcol : T.columns[p]? = some col)
    (hty : col.type = ColumnType.Text) (hti : T.text_index = some tr)
    (hkey : k = DBValue.text s) :
    T.update_index k r
      = .ok { T with text_index := some (treeInsert tr s r) } := by
  subst hkey
  unfold Table.update_index
  simp only [hp, hcol, hty, hti, getDBText]

theorem update_index_other {T : Table} {k : DBValue} {r : Nat} {p : Nat}
    {col : ColumnDef}
    (hp : T.primary_key_index = some p) (hcol : T.columns[p]? = some col)
    (hty1 : ¬col.type = ColumnType.Int) (hty2 : ¬col.type = ColumnType.Text) :
    T.update_index k r = .ok T := by
  unfold Table.update_index
  simp only [hp, hcol]
  cases hty : col.type with
  | Int => exact absurd hty hty1
  | Text => exact absurd hty hty2
  | Null => cases T.int_index <;> cases T.text_index <;> rfl
  | Float => cases T.int_index <;> cases T.text_index <;> rfl

theorem update_index_skeleton {T : Table} {key : DBValue} {ridx : Nat} {T2 : Table}
    (h : T.update_index key ridx = .ok T2) :
    T2.rows = T.rows ∧ T2.columns = T.columns ∧
      T2.primary_key_index = T.primary_key_index ∧ T2.name = T.name := by
  unfold Table.update_index at h
  repeat' split at h
  all_goals cases h
  all_goals exact ⟨rfl, rfl, rfl, rfl⟩

theorem insert_row_false_unchanged (T : Table) (row : Row)
    (h : (T.insert_row row).2 = Except.ok false) : (T.insert_row row).1 = T := by
  simp only [Table.insert_row] at h ⊢
  by_cases hlen : row.length ≠ T.columns.length
  · rw [if_pos hlen]
  · rw [if_neg hlen] at h ⊢
    cases hc : insertChecks T.primary_key_index T.int_index T.text_index
        (T.columns.zip row) 0 with
    | error e => simp [hc] at h
    | ok b =>
      cases b with
      | false => simp only [hc]
      | true =>
        simp only [hc] at h
        cases hpko : T.primary_key_index with
        | none => simp [hpko] at h
        | some p =>
          simp only [hpko] at h
          cases hkey : row[p]? with
          | none => simp [hkey] at h
          | some key =>
            simp only [hkey] at h
            cases hui : Table.update_index
                { T with rows := T.rows ++ [row], primary_key_index := some p }
                key T.rows.length with
            | ok T2 => simp [hui] at h
            | error e => simp [hui] at h

theorem insert_row_true_rows (T : Table) (row : Row)
    (h : (T.insert_row row).2 = Except.ok true) :
    (T.insert_row row).1.rows = T.rows ++ [row] ∧
      (T.insert_row row).1.columns = T.columns ∧
      (T.insert_row row).1.primary_key_index = T.primary_key_index := by
  simp only [Table.insert_row] at h ⊢
  by_cases hlen : row.length ≠ T.columns.length
  · rw [if_pos hlen] at h; simp at h
  · rw [if_neg hlen] at h ⊢
    cases hc : insertChecks T.primary_key_index T.int_index T.text_index
        (T.columns.zip row) 0 with
    | error e => simp [hc] at h
    | ok b =>
      cases b with
      | false => simp [hc] at h
      | true =>
        simp only [hc] at h ⊢
        cases hpko : T.primary_key_index with
        | none => simp [hpko]
        | some p =>
          simp only [hpko] at h ⊢
          cases hkey : row[p]? with
          | none => simp [hkey] at h
          | some key =>
            simp only [hkey] at h ⊢
            cases hui : Table.update_index
                { T with rows := T.rows ++ [row], primary_key_index := some p }
                key T.rows.length with
            | error e => simp [hui] at h
            | ok T2 =>
              simp only [hui]
              obtain ⟨h1, h2, h3, -⟩ := update_index_skeleton hui
              exact ⟨h1, h2, h3⟩

theorem insert_row_error_unchanged (T : Table) (row : Row) (hT : TInv T) :
    ∀ e, (T.insert_row row).2 = Except.error e → (T.insert_row row).1 = T := by
  intro e h
  simp only [Table.insert_row] at h ⊢
  by_cases hlen : row.length ≠ T.columns.length
  · rw [if_pos hlen]
  · rw [if_neg hlen] at h ⊢
    cases hc : insertChecks T.primary_key_index T.int_index T.text_index
        (T.columns.zip row) 0 with
    | error e2 => simp only [hc]
    | ok b =>
      cases b with
      | false => simp [hc] at h
      | true =>
        simp only [hc] at h
        cases hpko : T.primary_key_index with
        | none => simp [hpko] at h
        | some p =>
          simp only [hpko] at h
          obtain ⟨col, hcol, hcpk, hbr⟩ := hT p hpko
          have hlen' : row.length = T.columns.length := not_not.mp hlen
          have hplen : p < T.columns.length := by
            obtain ⟨hh, -⟩ := List.getElem?_eq_some.mp hcol
            exact hh
          have hklt : p < row.length := by omega
          obtain ⟨key, hkey⟩ : ∃ key, row[p]? = some key :=
            ⟨_, List.getElem?_eq_getElem hklt⟩
          simp only [hkey] at h
          have hzip : (T.columns.zip row)[p]? = some (col, key) :=
            zip_getElem_some hcol hkey
          have hpkcond : (col.primary_key && T.primary_key_index.isSome
              && (T.primary_key_index == some (0 + p))) = true := by
            rw [hpko, hcpk]
            simp
          have hfacts := insertChecks_ok_true_at (T.columns.zip row) 0 hc p col key
            hzip hpkcond
          rcases hbr with ⟨htyI, tr, hii, -, -⟩ | ⟨htyT, tr, hti, -, -⟩ | ⟨hty1, hty2⟩
          · obtain ⟨z, tr2, hkz, hii2, -⟩ := hfacts.1 htyI
            have hui := update_index_int
              (T := { T with rows := T.rows ++ [row], primary_key_index := some p })
              (r := T.rows.length) rfl hcol htyI hii hkz
            simp [hui] at h
          · obtain ⟨str, tr2, hks, hti2, -⟩ := hfacts.2 htyT
            have hui := update_index_text
              (T := { T with rows := T.rows ++ [row], primary_key_index := some p })
              (r := T.rows.length) rfl hcol htyT hti hks
            simp [hui] at h
          · have hui := update_index_other
              (T := { T with rows := T.rows ++ [row], primary_key_index := some p })
              (k := key) (r := T.rows.length) rfl hcol hty1 hty2
            simp [hui] at h

theorem TInv_mkTable (nm : String) (cols : List ColumnDef) :
    TInv (mkTable nm cols) := by
  unfold mkTable
  cases hf : cols.findIdx? (fun c => c.primary_key) with
  | none =>
    simp only [hf]
    intro p hp
    have hx : (none : Option Nat) = some p := hp
    cases hx
  | some i =>
    simp only [hf]
    intro p hp
    have hpe : i = p := Option.some.inj hp
    subst hpe
    obtain ⟨hilt, hpk, -⟩ := List.findIdx?_eq_some_iff_getElem.mp hf
    obtain ⟨col, hcol⟩ : ∃ c, cols[i]? = some c := ⟨_, List.getElem?_eq_getElem hilt⟩
    have hce : cols[i] = col :=
      Option.some.inj ((List.getElem?_eq_getElem hilt).symm.trans hcol)
    have hpk2 : col.primary_key = true := by rw [← hce]; exact hpk
    refine ⟨col, hcol, hpk2, ?_⟩
    cases hty : col.type with
    | Int =>
      refine Or.inl ⟨rfl, emptyTree, ?_, rootWF_emptyTree, ?_⟩
      · show (if (cols[i]?.map (fun c => c.type)) = some ColumnType.Int
            then some emptyTree else none) = some emptyTree
        rw [hcol]
        simp [hty]
      · intro j r hr
        have hx : (Option.none : Option Row) = some r := hr
        cases hx
    | Text =>
      refine Or.inr (Or.inl ⟨rfl, emptyTree, ?_, rootWF_emptyTree, ?_⟩)
      · show (if (cols[i]?.map (fun c => c.type)) = some ColumnType.Text
            then some emptyTree else none) = some emptyTree
        rw [hcol]
        simp [hty]
      · intro j r hr
        have hx : (Option.none : Option Row) = some r := hr
        cases hx
    | Null => exact Or.inr (Or.inr ⟨by simp [hty], by simp [hty]⟩)
    | Float => exact Or.inr (Or.inr ⟨by simp [hty], by simp [hty]⟩)

theorem TInv_insert_row (T : Table) (row : Row) (hT : TInv T) :
    TInv (T.insert_row row).1 := by
  simp only [Table.insert_row]
  by_cases hlen : row.length ≠ T.columns.length
  · rw [if_pos hlen]; exact hT
  · rw [if_neg hlen]
    cases hc : insertChecks T.primary_key_index T.int_index T.text_index
        (T.columns.zip row) 0 with
    | error e => simp only [hc]; exact hT
    | ok b =>
      cases b with
      | false => simp only [hc]; exact hT
      | true =>
        simp only [hc]
        cases hpko : T.primary_key_index with
        | none =>
          simp only [hpko]
          intro p' hp'
          have hx : (none : Option Nat) = some p' := hp'
          cases hx
        | some p =>
          simp only [hpko]
          obtain ⟨col, hcol, hcpk, hbr⟩ := hT p hpko
          have hlen' : row.length = T.columns.length := not_not.mp hlen
          have hplen : p < T.columns.length := by
            obtain ⟨hh, -⟩ := List.getElem?_eq_some.mp hcol
            exact hh
          have hklt : p < row.length := by omega
          obtain ⟨key, hkey⟩ : ∃ key, row[p]? = some key :=
            ⟨_, List.getElem?_eq_getElem hklt⟩
          simp only [hkey]
          have hzip : (T.columns.zip row)[p]? = some (col, key) :=
            zip_getElem_some hcol hkey
          have hpkcond : (col.primary_key && T.primary_key_index.isSome
              && (T.primary_key_index == some (0 + p))) = true := by
            rw [hpko, hcpk]
            simp
          have hfacts := insertChecks_ok_true_at (T.columns.zip row) 0 hc p col key
            hzip hpkcond
          rcases hbr with ⟨htyI, tr, hii, hwf, hmap⟩ | ⟨htyT, tr, hti, hwf, hmap⟩
            | ⟨hty1, hty2⟩
          · obtain ⟨z, tr2, hkz, hii2, hfnone⟩ := hfacts.1 htyI
            have htr : tr2 = tr := Option.some.inj (hii2.symm.trans hii)
            subst htr
            have hui := update_index_int
              (T := { T with rows := T.rows ++ [row], primary_key_index := some p })
              (r := T.rows.length) rfl hcol htyI hii hkz
            simp only [hui]
            intro p' hp'
            have hpe : p = p' := Option.some.inj hp'
            subst hpe
            refine ⟨col, hcol, hcpk, Or.inl ⟨htyI, treeInsert tr2 z T.rows.length,
              rfl, (treeInsert_ok hwf z T.rows.length).1, ?_⟩⟩
            intro i r hr
            have hr2 : (T.rows ++ [row])[i]? = some r := hr
            by_cases hi : i < T.rows.length
            · have hr3 : T.rows[i]? = some r :=
                (List.getElem?_append_left hi).symm.trans hr2
              obtain ⟨z', hz', hfind⟩ := hmap i r hr3
              have hne : z' ≠ z := by
                intro he
                rw [he, hfnone] at hfind
                cases hfind
              refine ⟨z', hz', ?_⟩
              rw [treeFind_treeInsert hwf z z' T.rows.length, if_neg hne]
              exact hfind
            · have hieq : i = T.rows.length := by
                obtain ⟨hh, -⟩ := List.getElem?_eq_some.mp hr2
                simp only [List.length_append, List.length_cons,
                  List.length_nil] at hh
                omega
              subst hieq
              have hrr : r = row := by
                rw [List.getElem?_concat_length] at hr2
                exact (Option.some.inj hr2).symm
              subst hrr
              refine ⟨z, by rw [hkey, hkz], ?_⟩
              rw [treeFind_treeInsert hwf z z T.rows.length, if_pos rfl]
          · obtain ⟨s, tr2, hks, hti2, hfnone⟩ := hfacts.2 htyT
            have htr : tr2 = tr := Option.some.inj (hti2.symm.trans hti)
            subst htr
            have hui := update_index_text
              (T := { T with rows := T.rows ++ [row], primary_key_index := some p })
              (r := T.rows.length) rfl hcol htyT hti hks
            simp only [hui]
            intro p' hp'
            have hpe : p = p' := Option.some.inj hp'
            subst hpe
            refine ⟨col, hcol, hcpk, Or.inr (Or.inl ⟨htyT,
              treeInsert tr2 s T.rows.length,
              rfl, (treeInsert_ok hwf s T.rows.length).1, ?_⟩)⟩
            intro i r hr
            have hr2 : (T.rows ++ [row])[i]? = some r := hr
            by_cases hi : i < T.rows.length
            · have hr3 : T.rows[i]? = some r :=
                (List.getElem?_append_left hi).symm.trans hr2
              obtain ⟨s', hs', hfind⟩ := hmap i r hr3
              have hne : s' ≠ s := by
                intro he
                rw [he, hfnone] at hfind
                cases hfind
              refine ⟨s', hs', ?_⟩
              rw [treeFind_treeInsert hwf s s' T.rows.length, if_neg hne]
              exact hfind
            · have hieq : i = T.rows.length := by
                obtain ⟨hh, -⟩ := List.getElem?_eq_some.mp hr2
                simp only [List.length_append, List.length_cons,
                  List.length_nil] at hh
                omega
              subst hieq
              have hrr : r = row := by
                rw [List.getElem?_concat_length] at hr2
                exact (Option.some.inj hr2).symm
              subst hrr
              refine ⟨s, by rw [hkey, hks], ?_⟩
              rw [treeFind_treeInsert hwf s s T.rows.length, if_pos rfl]
          · have hui := update_index_other
              (T := { T with rows := T.rows ++ [row], primary_key_index := some p })
              (k := key) (r := T.rows.length) rfl hcol hty1 hty2
            simp only [hui]
            intro p' hp'
            have hpe : p = p' := Option.some.inj hp'
            subst hpe
            exact ⟨col, hcol, hcpk, Or.inr (Or.inr ⟨hty1, hty2⟩)⟩

theorem applyAssignments_cons (cols : List ColumnDef) (q : Nat × DBValue)
    (rest : List (Nat × DBValue)) (row : Row) :
    applyAssignments cols (q :: rest) row
      = applyAssignments cols rest
          (match cols[q.1]? with
           | none => row
           | some col => if !q.2.isNull && (value_type q.2 != col.type) then row
               else row.set q.1 q.2) := rfl

theorem applyAssignments_length (cols : List ColumnDef) :
    ∀ (cmap : List (Nat × DBValue)) (row : Row),
      (applyAssignments cols cmap row).length = row.length := by
  intro cmap
  induction cmap with
  | nil => intro row; rfl
  | cons q rest ih =>
    intro row
    rw [applyAssignments_cons, ih]
    cases hc : cols[q.1]? with
    | none => simp only [hc]
    | some col =>
      simp only [hc]
      by_cases htc : (!q.2.isNull && (value_type q.2 != col.type)) = true
      · rw [if_pos htc]
      · rw [if_neg htc]
        exact List.length_set row q.1 q.2

theorem applyAssignments_not_assigned (cols : List ColumnDef) {p : Nat} :
    ∀ (cmap : List (Nat × DBValue)) (row : Row), (∀ q ∈ cmap, q.1 ≠ p) →
      (applyAssignments cols cmap row)[p]? = row[p]? := by
  intro cmap
  induction cmap with
  | nil => intro row h; rfl
  | cons q rest ih =>
    intro row h
    rw [applyAssignments_cons,
      ih _ (fun q' hq' => h q' (List.mem_cons_of_mem _ hq'))]
    have hqp : q.1 ≠ p := h q (List.mem_cons_self _ _)
    cases hc : cols[q.1]? with
    | none => simp only [hc]
    | some col =>
      simp only [hc]
      by_cases htc : (!q.2.isNull && (value_type q.2 != col.type)) = true
      · rw [if_pos htc]
      · rw [if_neg htc]
        exact List.getElem?_set_ne hqp

theorem assocFind_eq_none_forall {m : List (Nat × DBValue)} {p : Nat}
    (h : assocFind m p = none) : ∀ q ∈ m, q.1 ≠ p := by
  unfold assocFind at h
  cases hx : m.find? (fun q => q.1 == p) with
  | some q0 => rw [hx] at h; cases h
  | none =>
    intro q hq he
    have hnp := List.find?_eq_none.mp hx q hq
    exact hnp (by simp [he])

theorem applyAssignments_assigned (cols : List ColumnDef) {p : Nat} {v : DBValue}
    {col : ColumnDef} (hcol : cols[p]? = some col)
    (hok : (!v.isNull && (value_type v != col.type)) = false) :
    ∀ (cmap : List (Nat × DBValue)) (row : Row),
      List.Nodup (cmap.map Prod.fst) → assocFind cmap p = some v →
      p < row.length →
      (applyAssignments cols cmap row)[p]? = some v := by
  intro cmap
  induction cmap with
  | nil =>
    intro row hnd hf hlt
    simp [assocFind] at hf
  | cons q rest ih =>
    intro row hnd hf hlt
    rw [applyAssignments_cons]
    by_cases hqp : (q.1 == p) = true
    · have hqp2 : q.1 = p := by simpa using hqp
      have hv : q.2 = v := by
        unfold assocFind at hf
        rw [List.find?_cons_of_pos (p := fun q0 => q0.1 == p) rest hqp] at hf
        simpa using hf
      have hrest : ∀ q2, q2 ∈ rest → q2.1 ≠ p := by
        intro q2 hq2 he
        have hndm : List.Nodup (q.1 :: rest.map Prod.fst) := by
          rw [List.map_cons] at hnd
          exact hnd
        have hnd1 := (List.nodup_cons.mp hndm).1
        exact hnd1 (by
          rw [hqp2, ← he]
          exact List.mem_map_of_mem _ hq2)
      rw [applyAssignments_not_assigned cols rest _ hrest, hqp2, hv]
      simp only [hcol, hok]
      rw [if_neg Bool.false_ne_true]
      exact List.getElem?_set_self hlt
    · have hf2 : assocFind rest p = some v := by
        unfold assocFind at hf ⊢
        rw [List.find?_cons_of_neg (p := fun q0 => q0.1 == p) rest hqp] at hf
        exact hf
      have hndm : List.Nodup (q.1 :: rest.map Prod.fst) := by
        rw [List.map_cons] at hnd
        exact hnd
      have hnd2 := (List.nodup_cons.mp hndm).2
      exact ih _ hnd2 hf2
        (lt_of_lt_of_eq hlt (applyAssignments_length cols [q] row).symm)

theorem getDBInt_ok {v : DBValue} {z : Int} (h : getDBInt v = .ok z) :
    v = DBValue.int z := by
  cases v with
  | int z2 =>
    have h2 : (Except.ok z2 : Except DBErr Int) = .ok z := h
    rw [Except.ok.inj h2]
  | null => cases h
  | flt q => cases h
  | text s => cases h

theorem getDBText_ok {v : DBValue} {s : String} (h : getDBText v = .ok s) :
    v = DBValue.text s := by
  cases v with
  | text s2 =>
    have h2 : (Except.ok s2 : Except DBErr String) = .ok s := h
    rw [Except.ok.inj h2]
  | null => cases h
  | flt q => cases h
  | int z => cases h

theorem assocSet_keys_nodup {m : List (Nat × DBValue)} {i : Nat} {v : DBValue}
    (h : List.Nodup (m.map Prod.fst)) :
    List.Nodup ((assocSet m i v).map Prod.fst) := by
  unfold assocSet
  by_cases hany : m.any (fun q => q.1 == i) = true
  · rw [if_pos hany]
    have hkeys : (m.map (fun q => if q.1 == i then (i, v) else q)).map Prod.fst
        = m.map Prod.fst := by
      rw [List.map_map]
      apply List.map_congr_left
      intro q hq
      simp only [Function.comp_apply]
      by_cases hqi : (q.1 == i) = true
      · have hqi2 : q.1 = i := by simpa using hqi
        rw [if_pos hqi]
        exact hqi2.symm
      · rw [if_neg hqi]
    rw [hkeys]
    exact h
  · rw [if_neg hany]
    rw [List.map_append]
    refine List.Nodup.append h (List.nodup_singleton i) ?_
    intro a ha hb
    simp only [List.map_cons, List.map_nil, List.mem_singleton] at hb
    have hfalse : m.any (fun q => q.1 == i) = false := by
      cases hx : m.any (fun q => q.1 == i) with
      | false => rfl
      | true => exact absurd hx hany
    obtain ⟨q, hq, hfst⟩ := List.mem_map.mp ha
    exact (List.any_eq_false.mp hfalse) q hq (by simp [hfst, hb])

theorem update_cmap_nodup (T : Table) (updates : List (String × DBValue)) :
    ∀ m, List.Nodup (m.map Prod.fst) →
      List.Nodup ((updates.foldl (fun m (p : String × DBValue) =>
        match T.column_index p.1 with
        | some idx => assocSet m idx p.2
        | none => m) m).map Prod.fst) := by
  induction updates with
  | nil => intro m h; exact h
  | cons u rest ih =>
    intro m h
    rw [List.foldl_cons]
    apply ih
    cases hci : T.column_index u.1 with
    | none => simpa [hci] using h
    | some idx =>
      simp only [hci]
      exact assocSet_keys_nodup h

theorem updateRowApply_false (cmap : List (Nat × DBValue)) (st : Table × Nat)
    (i : Nat) (row : Row) :
    updateRowApply cmap false st i row
      = .ok ({ st.1 with rows := st.1.rows.set i (applyAssignments st.1.columns cmap row) }, st.2 + 1) := rfl

theorem updateRowApply_true_pk {cmap : List (Nat × DBValue)} {st : Table × Nat}
    {i : Nat} {row : Row} {p : Nat} {key : DBValue}
    (hp : st.1.primary_key_index = some p)
    (hkey : (applyAssignments st.1.columns cmap row)[p]? = some key) :
    updateRowApply cmap true st i row
      = (match Table.update_index { st.1 with rows := st.1.rows.set i (applyAssignments st.1.columns cmap row) } key i with
         | .ok T2 => .ok (T2, st.2 + 1)
         | .error e => .error e) := by
  unfold updateRowApply
  simp only [hp, hkey]
  rw [if_pos trivial]

theorem updateRowApply_true_pk_oob {cmap : List (Nat × DBValue)} {st : Table × Nat}
    {i : Nat} {row : Row} {p : Nat}
    (hp : st.1.primary_key_index = some p)
    (hkey : (applyAssignments st.1.columns cmap row)[p]? = none) :
    updateRowApply cmap true st i row = .error .nullIndexDeref := by
  unfold updateRowApply
  simp only [hp, hkey]
  rw [if_pos trivial]

theorem TInv_pk_apply_int {cmap : List (Nat × DBValue)} {st st' : Table × Nat}
    {i p : Nat} {row : Row} {col : ColumnDef} {tr : BT Int Nat} {z : Int}
    (hnd : List.Nodup (cmap.map Prod.fst))
    (hpko : st.1.primary_key_index = some p)
    (hcol : st.1.columns[p]? = some col) (hcpk : col.primary_key = true)
    (htyI : col.type = ColumnType.Int)
    (hii : st.1.int_index = some tr) (hwf : rootWF tr)
    (hmap : ∀ j r, st.1.rows[j]? = some r →
      ∃ z0, r[p]? = some (DBValue.int z0) ∧ treeFind tr z0 = some j)
    (hrow : st.1.rows[i]? = some row)
    (haf : assocFind cmap p = some (DBValue.int z))
    (hzi : ∀ j, treeFind tr z = some j → j = i)
    (h : updateRowApply cmap true st i row = .ok st') : TInv st'.1 := by
  obtain ⟨z0, hz0, hfind0⟩ := hmap i row hrow
  have hplen : p < row.length := by
    obtain ⟨hh, -⟩ := List.getElem?_eq_some.mp hz0
    exact hh
  have hok : (!(DBValue.int z).isNull
      && (value_type (DBValue.int z) != col.type)) = false := by
    rw [htyI]; rfl
  have hkey1 : (applyAssignments st.1.columns cmap row)[p]? =
      some (DBValue.int z) :=
    applyAssignments_assigned st.1.columns hcol hok cmap row hnd haf hplen
  rw [updateRowApply_true_pk hpko hkey1] at h
  have hui := update_index_int
    (T := { st.1 with rows := st.1.rows.set i (applyAssignments st.1.columns cmap row) })
    (r := i) (z := z) hpko hcol htyI hii rfl
  simp only [hui] at h
  have hst := Except.ok.inj h
  subst hst
  intro p2 hp2
  have hpp : st.1.primary_key_index = some p2 := hp2
  have hpe : p = p2 := Option.some.inj (hpko.symm.trans hpp)
  subst hpe
  refine ⟨col, hcol, hcpk, Or.inl ⟨htyI, treeInsert tr z i, rfl,
    (treeInsert_ok hwf z i).1, ?_⟩⟩
  intro j r hr
  have hr2 : (st.1.rows.set i
      (applyAssignments st.1.columns cmap row))[j]? = some r := hr
  by_cases hij : j = i
  · subst hij
    have hjlen : j < st.1.rows.length := by
      obtain ⟨hh, -⟩ := List.getElem?_eq_some.mp hrow
      exact hh
    rw [List.getElem?_set_self hjlen] at hr2
    have hre := Option.some.inj hr2
    refine ⟨z, ?_, ?_⟩
    · rw [← hre]
      exact hkey1
    · rw [treeFind_treeInsert hwf z z j, if_pos rfl]
  · rw [List.getElem?_set_ne (fun he => hij he.symm)] at hr2
    obtain ⟨z2, hz2, hfind⟩ := hmap j r hr2
    have hne : z2 ≠ z := by
      intro he
      subst he
      exact hij (hzi j hfind)
    refine ⟨z2, hz2, ?_⟩
    rw [treeFind_treeInsert hwf z z2 i, if_neg hne]
    exact hfind

theorem TInv_pk_apply_text {cmap : List (Nat × DBValue)} {st st' : Table × Nat}
    {i p : Nat} {row : Row} {col : ColumnDef} {tr : BT String Nat} {s : String}
    (hnd : List.Nodup (cmap.map Prod.fst))
    (hpko : st.1.primary_key_index = some p)
    (hcol : st.1.columns[p]? = some col) (hcpk : col.primary_key = true)
    (htyT : col.type = ColumnType.Text)
    (hti : st.1.text_index = some tr) (hwf : rootWF tr)
    (hmap : ∀ j r, st.1.rows[j]? = some r →
      ∃ s0, r[p]? = some (DBValue.text s0) ∧ treeFind tr s0 = some j)
    (hrow : st.1.rows[i]? = some row)
    (haf : assocFind cmap p = some (DBValue.text s))
    (hzi : ∀ j, treeFind tr s = some j → j = i)
    (h : updateRowApply cmap true st i row = .ok st') : TInv st'.1 := by
  obtain ⟨s0, hs0, hfind0⟩ := hmap i row hrow
  have hplen : p < row.length := by
    obtain ⟨hh, -⟩ := List.getElem?_eq_some.mp hs0
    exact hh
  have hok : (!(DBValue.text s).isNull
      && (value_type (DBValue.text s) != col.type)) = false := by
    rw [htyT]; rfl
  have hkey1 : (applyAssignments st.1.columns cmap row)[p]? =
      some (DBValue.text s) :=
    applyAssignments_assigned st.1.columns hcol hok cmap row hnd haf hplen
  rw [updateRowApply_true_pk hpko hkey1] at h
  have hui := update_index_text
    (T := { st.1 with rows := st.1.rows.set i (applyAssignments st.1.columns cmap row) })
    (r := i) (s := s) hpko hcol htyT hti rfl
  simp only [hui] at h
  have hst := Except.ok.inj h
  subst hst
  intro p2 hp2
  have hpp : st.1.primary_key_index = some p2 := hp2
  have hpe : p = p2 := Option.some.inj (hpko.symm.trans hpp)
  subst hpe
  refine ⟨col, hcol, hcpk, Or.inr (Or.inl ⟨htyT, treeInsert tr s i, rfl,
    (treeInsert_ok hwf s i).1, ?_⟩)⟩
  intro j r hr
  have hr2 : (st.1.rows.set i
      (applyAssignments st.1.columns cmap row))[j]? = some r := hr
  by_cases hij : j = i
  · subst hij
    have hjlen : j < st.1.rows.length := by
      obtain ⟨hh, -⟩ := List.getElem?_eq_some.mp hrow
      exact hh
    rw [List.getElem?_set_self hjlen] at hr2
    have hre := Option.some.inj hr2
    refine ⟨s, ?_, ?_⟩
    · rw [← hre]
      exact hkey1
    · rw [treeFind_treeInsert hwf s s j, if_pos rfl]
  · rw [List.getElem?_set_ne (fun he => hij he.symm)] at hr2
    obtain ⟨s2, hs2, hfind⟩ := hmap j r hr2
    have hne : s2 ≠ s := by
      intro he
      subst he
      exact hij (hzi j hfind)
    refine ⟨s2, hs2, ?_⟩
    rw [treeFind_treeInsert hwf s s2 i, if_neg hne]
    exact hfind

theorem TInv_updateRowStep {cmap : List (Nat × DBValue)} {conds : List Condition}
    {st st' : Table × Nat} {i : Nat} (hT : TInv st.1)
    (hnd : List.Nodup (cmap.map Prod.fst))
    (h : updateRowStep cmap conds st i = .ok st') : TInv st'.1 := by
  unfold updateRowStep at h
  cases hrow : st.1.rows[i]? with
  | none =>
    simp only [hrow] at h
    rw [← Except.ok.inj h]
    exact hT
  | some row =>
    simp only [hrow] at h
    by_cases hm : st.1.row_matches row conds
    · rw [if_pos hm] at h
      cases hpko : st.1.primary_key_index with
      | none =>
        simp only [hpko] at h
        rw [updateRowApply_false] at h
        have hst := Except.ok.inj h
        subst hst
        intro p2 hp2
        have hpp : st.1.primary_key_index = some p2 := hp2
        rw [hpko] at hpp
        cases hpp
      | some p =>
        simp only [hpko] at h
        obtain ⟨col, hcol, hcpk, hbr⟩ := hT p hpko
        cases haf : assocFind cmap p with
        | none =>
          simp only [haf] at h
          rw [updateRowApply_false] at h
          have hst := Except.ok.inj h
          subst hst
          have hforall := assocFind_eq_none_forall haf
          intro p2 hp2
          have hpp : st.1.primary_key_index = some p2 := hp2
          have hpe : p = p2 := Option.some.inj (hpko.symm.trans hpp)
          subst hpe
          refine ⟨col, hcol, hcpk, ?_⟩
          rcases hbr with ⟨htyI, tr, hii, hwf, hmap⟩ |
            ⟨htyT, tr, hti, hwf, hmap⟩ | ⟨ht1, ht2⟩
          · refine Or.inl ⟨htyI, tr, hii, hwf, ?_⟩
            intro j r hr
            have hr2 : (st.1.rows.set i
                (applyAssignments st.1.columns cmap row))[j]? = some r := hr
            by_cases hij : j = i
            · subst hij
              have hjlen : j < st.1.rows.length := by
                obtain ⟨hh, -⟩ := List.getElem?_eq_some.mp hrow
                exact hh
              rw [List.getElem?_set_self hjlen] at hr2
              have hre := Option.some.inj hr2
              obtain ⟨z0, hz0, hfind0⟩ := hmap j row hrow
              refine ⟨z0, ?_, hfind0⟩
              rw [← hre, applyAssignments_not_assigned st.1.columns cmap row hforall]
              exact hz0
            · rw [List.getElem?_set_ne (fun he => hij he.symm)] at hr2
              exact hmap j r hr2
          · refine Or.inr (Or.inl ⟨htyT, tr, hti, hwf, ?_⟩)
            intro j r hr
            have hr2 : (st.1.rows.set i
                (applyAssignments st.1.columns cmap row))[j]? = some r := hr
            by_cases hij : j = i
            · subst hij
              have hjlen : j < st.1.rows.length := by
                obtain ⟨hh, -⟩ := List.getElem?_eq_some.mp hrow
                exact hh
              rw [List.getElem?_set_self hjlen] at hr2
              have hre := Option.some.inj hr2
              obtain ⟨s0, hs0, hfind0⟩ := hmap j row hrow
              refine ⟨s0, ?_, hfind0⟩
              rw [← hre, applyAssignments_not_assigned st.1.columns cmap row hforall]
              exact hs0
            · rw [List.getElem?_set_ne (fun he => hij he.symm)] at hr2
              exact hmap j r hr2
          · exact Or.inr (Or.inr ⟨ht1, ht2⟩)
        | some newPk =>
          simp only [haf] at h
          rcases hbr with ⟨htyI, tr, hii, hwf, hmap⟩ |
            ⟨htyT, tr, hti, hwf, hmap⟩ | ⟨ht1, ht2⟩
          · have hmapty : st.1.columns[p]?.map (fun c => c.type)
                = some ColumnType.Int := by
              rw [hcol]
              simp [htyI]
            simp only [hmapty] at h
            cases hget : getDBInt newPk with
            | error e =>
              simp only [hget] at h
              cases h
            | ok z =>
              simp only [hget, hii] at h
              have hnp := getDBInt_ok hget
              subst hnp
              cases hfd : treeFind tr z with
              | some j =>
                simp only [hfd] at h
                by_cases hji : j ≠ i
                · rw [if_pos hji] at h
                  rw [← Except.ok.inj h]
                  exact hT
                · rw [if_neg hji] at h
                  exact TInv_pk_apply_int hnd hpko hcol hcpk htyI hii hwf hmap
                    hrow haf
                    (fun j2 hj2 => by
                      rw [hfd] at hj2
                      have hjj := Option.some.inj hj2
                      omega) h
              | none =>
                simp only [hfd] at h
                exact TInv_pk_apply_int hnd hpko hcol hcpk htyI hii hwf hmap
                  hrow haf
                  (fun j2 hj2 => by rw [hfd] at hj2; cases hj2) h
          · have hmapty : st.1.columns[p]?.map (fun c => c.type)
                = some ColumnType.Text := by
              rw [hcol]
              simp [htyT]
            simp only [hmapty] at h
            cases hget : getDBText newPk with
            | error e =>
              simp only [hget] at h
              cases h
            | ok s =>
              simp only [hget, hti] at h
              have hnp := getDBText_ok hget
              subst hnp
              cases hfd : treeFind tr s with
              | some j =>
                simp only [hfd] at h
                by_cases hji : j ≠ i
                · rw [if_pos hji] at h
                  rw [← Except.ok.inj h]
                  exact hT
                · rw [if_neg hji] at h
                  exact TInv_pk_apply_text hnd hpko hcol hcpk htyT hti hwf hmap
                    hrow haf
                    (fun j2 hj2 => by
                      rw [hfd] at hj2
                      have hjj := Option.some.inj hj2
                      omega) h
              | none =>
                simp only [hfd] at h
                exact TInv_pk_apply_text hnd hpko hcol hcpk htyT hti hwf hmap
                  hrow haf
                  (fun j2 hj2 => by rw [hfd] at hj2; cases hj2) h
          · have hmapty : st.1.columns[p]?.map (fun c => c.type)
                = some col.type := by
              rw [hcol]
              rfl
            cases hty : col.type with
            | Int => exact absurd hty ht1
            | Text => exact absurd hty ht2
            | Null =>
              rw [hty] at hmapty
              simp only [hmapty] at h
              cases hk1 : (applyAssignments st.1.columns cmap row)[p]? with
              | none =>
                rw [updateRowApply_true_pk_oob hpko hk1] at h
                cases h
              | some key =>
                rw [updateRowApply_true_pk hpko hk1] at h
                have hui := update_index_other
                  (T := { st.1 with rows := st.1.rows.set i (applyAssignments st.1.columns cmap row) })
                  (k := key) (r := i) hpko hcol
                  (by rw [hty]; simp) (by rw [hty]; simp)
                simp only [hui] at h
                have hst := Except.ok.inj h
                subst hst
                intro p2 hp2
                have hpp : st.1.primary_key_index = some p2 := hp2
                have hpe : p = p2 := Option.some.inj (hpko.symm.trans hpp)
                subst hpe
                exact ⟨col, hcol, hcpk, Or.inr (Or.inr ⟨ht1, ht2⟩)⟩
            | Float =>
              rw [hty] at hmapty
              simp only [hmapty] at h
              cases hk1 : (applyAssignments st.1.columns cmap row)[p]? with
              | none =>
                rw [updateRowApply_true_pk_oob hpko hk1] at h
                cases h
              | some key =>
                rw [updateRowApply_true_pk hpko hk1] at h
                have hui := update_index_other
                  (T := { st.1 with rows := st.1.rows.set i (applyAssignments st.1.columns cmap row) })
                  (k := key) (r := i) hpko hcol
                  (by rw [hty]; simp) (by rw [hty]; simp)
                simp only [hui] at h
                have hst := Except.ok.inj h
                subst hst
                intro p2 hp2
                have hpp : st.1.primary_key_index = some p2 := hp2
                have hpe : p = p2 := Option.some.inj (hpko.symm.trans hpp)
                subst hpe
                exact ⟨col, hcol, hcpk, Or.inr (Or.inr ⟨ht1, ht2⟩)⟩
    · rw [if_neg hm] at h
      rw [← Except.ok.inj h]
      exact hT

theorem TInv_updateLoop {cmap : List (Nat × DBValue)} {c : List Condition}
    (hnd : List.Nodup (cmap.map Prod.fst)) :
    ∀ (idxs : List Nat) (st : Table × Nat), TInv st.1 →
      TInv (updateLoop cmap c idxs st).1.1 := by
  intro idxs
  induction idxs with
  | nil => intro st h; exact h
  | cons i rest ih =>
    intro st h
    simp only [updateLoop]
    cases hs : updateRowStep cmap c st i with
    | ok st1 =>
      simp only [hs]
      exact ih st1 (TInv_updateRowStep h hnd hs)
    | error e =>
      simp only [hs]
      exact h

theorem TInv_update (T : Table) (updates : List (String × DBValue))
    (conds : List Condition) (hT : TInv T) : TInv (T.update updates conds).1 := by
  simp only [Table.update]
  have hnd := update_cmap_nodup T updates [] (by simp)
  have hres := TInv_updateLoop (c := conds) hnd
    (List.range T.rows.length) (T, 0) hT
  cases hl : updateLoop (updates.foldl (fun m (p : String × DBValue) =>
      match T.column_index p.1 with
      | some idx => assocSet m idx p.2
      | none => m) []) conds (List.range T.rows.length) (T, 0) with
  | mk st oe =>
    rw [hl] at hres
    cases oe with
    | none => simp only [hl]; exact hres
    | some e => simp only [hl]; exact hres

theorem TInv_reach {T : Table} (h : ReachIU T) : TInv T := by
  induction h with
  | create nm cols => exact TInv_mkTable nm cols
  | ins row h2 ih => exact TInv_insert_row _ row ih
  | upd updates conds h2 ih => exact TInv_update _ updates conds ih

theorem cexTable0_TInv : TInv cexTable0 := by
  intro p hp
  have hpk : cexTable0.primary_key_index = some 0 := rfl
  rw [hpk] at hp
  injection hp with hp0
  subst hp0
  refine ⟨⟨"id", ColumnType.Int, true, false⟩, rfl, rfl,
    Or.inl ⟨rfl, emptyTree, rfl, rootWF_emptyTree, ?_⟩⟩
  intro i r hr
  rw [show cexTable0.rows = [] from rfl] at hr
  simp at hr

/-- C5 amended: for every row argument, `insert_row` either returns true having
appended exactly that row (and, with an `Int`- or `Text`-keyed index, upserted
new key ↦ new position), or returns false with the table unchanged — except
that a row holding `Null` in the primary-key column of an indexed table makes
the uniqueness check's `std::get` throw instead of returning false; the table
is completely unchanged in that case too.  `TInv` is the constructor-established
structural invariant relating the primary-key position to the columns and
indexes. -/
theorem C5_amended_insert_row_atomic (T : Table) (row : Row) (hT : TInv T) :
    ((T.insert_row row).2 = Except.ok true →
      (T.insert_row row).1.rows = T.rows ++ [row]) ∧
    ((T.insert_row row).2 = Except.ok false → (T.insert_row row).1 = T) ∧
    (∀ e, (T.insert_row row).2 = Except.error e → (T.insert_row row).1 = T) ∧
    (∀ p col z tr, T.primary_key_index = some p → T.columns[p]? = some col →
      col.type = ColumnType.Int → T.int_index = some tr →
      row[p]? = some (DBValue.int z) →
      (T.insert_row row).2 = Except.ok true →
      (T.insert_row row).1.int_index = some (treeInsert tr z T.rows.length)) := by
  refine ⟨fun h => (insert_row_true_rows T row h).1,
    insert_row_false_unchanged T row,
    insert_row_error_unchanged T row hT, ?_⟩
  intro p col z tr hp hcol hty hii hkey h
  simp only [Table.insert_row] at h ⊢
  by_cases hlen : row.length ≠ T.columns.length
  · rw [if_pos hlen] at h; simp at h
  · rw [if_neg hlen] at h ⊢
    cases hc : insertChecks T.primary_key_index T.int_index T.text_index
        (T.columns.zip row) 0 with
    | error e => simp [hc] at h
    | ok b =>
      cases b with
      | false => simp [hc] at h
      | true =>
        have hui := update_index_int
          (T := { T with rows := T.rows ++ [row], primary_key_index := some p })
          (r := T.rows.length) (z := z) rfl hcol hty hii rfl
        simp only [hc, hp, hkey, hui]

theorem C5_amended_insert_row_atomic_witness :
    TInv cexTable0 ∧
      (((cexTable0.insert_row [DBValue.int 9]).2 = Except.ok true →
        (cexTable0.insert_row [DBValue.int 9]).1.rows
          = cexTable0.rows ++ [[DBValue.int 9]]) ∧
      ((cexTable0.insert_row [DBValue.int 9]).2 = Except.ok false →
        (cexTable0.insert_row [DBValue.int 9]).1 = cexTable0) ∧
      (∀ e, (cexTable0.insert_row [DBValue.int 9]).2 = Except.error e →
        (cexTable0.insert_row [DBValue.int 9]).1 = cexTable0) ∧
      (∀ p col z tr, cexTable0.primary_key_index = some p →
        cexTable0.columns[p]? = some col →
        col.type = ColumnType.Int → cexTable0.int_index = some tr →
        ([DBValue.int 9] : Row)[p]? = some (DBValue.int z) →
        (cexTable0.insert_row [DBValue.int 9]).2 = Except.ok true →
        (cexTable0.insert_row [DBValue.int 9]).1.int_index
          = some (treeInsert tr z cexTable0.rows.length))) :=
  ⟨cexTable0_TInv, C5_amended_insert_row_atomic cexTable0 [DBValue.int 9] cexTable0_TInv⟩

/-- C5 counterexample: inserting the row `[Null]` into a table whose nullable
primary-key column has type `Int` does not return false — the `std::get<DBInt>`
inside the uniqueness check throws `std::bad_variant_access` (the row heap is
still unchanged), so insert_row signals this failure by an exception rather
than its boolean result. -/
theorem C5_null_pk_insert_throws :
    (cexTable0.insert_row [DBValue.null]).2 = Except.error DBErr.badVariantAccess ∧
      (cexTable0.insert_row [DBValue.null]).1.rows = [] ∧
      (cexTable0.columns.map (fun c => c.not_null)) = [false] :=
  ⟨rfl, rfl, rfl⟩

/-- C6 counterexample: with one row `[1]` in an `Int` primary-key table,
`update id = 'x'` (no conditions) is claimed to silently skip the mismatched
field and report 1 row updated; instead the uniqueness check's
`std::get<DBInt>` throws, aborting the call. -/
theorem C6_pk_variant_mismatch_throws :
    ((cexTable0.insert_row [DBValue.int 1]).1.update
        [("id", DBValue.text "x")] []).2
      = Except.error DBErr.badVariantAccess :=
  rfl

theorem applyAssignments_skipped (cols : List ColumnDef) {p : Nat} {v : DBValue}
    {col : ColumnDef} (hcol : cols[p]? = some col)
    (hbad : (!v.isNull && (value_type v != col.type)) = true) :
    ∀ (cmap : List (Nat × DBValue)) (row : Row),
      List.Nodup (cmap.map Prod.fst) → assocFind cmap p = some v →
      (applyAssignments cols cmap row)[p]? = row[p]? := by
  intro cmap
  induction cmap with
  | nil =>
    intro row hnd hf
    simp [assocFind] at hf
  | cons q rest ih =>
    intro row hnd hf
    rw [applyAssignments_cons]
    by_cases hqp : (q.1 == p) = true
    · have hqp2 : q.1 = p := by simpa using hqp
      have hv : q.2 = v := by
        unfold assocFind at hf
        rw [List.find?_cons_of_pos (p := fun q0 => q0.1 == p) rest hqp] at hf
        simpa using hf
      have hrest : ∀ q2, q2 ∈ rest → q2.1 ≠ p := by
        intro q2 hq2 he
        have hndm : List.Nodup (q.1 :: rest.map Prod.fst) := by
          rw [List.map_cons] at hnd
          exact hnd
        have hnd1 := (List.nodup_cons.mp hndm).1
        exact hnd1 (by
          rw [hqp2, ← he]
          exact List.mem_map_of_mem _ hq2)
      rw [applyAssignments_not_assigned cols rest _ hrest, hqp2, hv]
      simp only [hcol]
      rw [if_pos hbad]
    · have hf2 : assocFind rest p = some v := by
        unfold assocFind at hf ⊢
        rw [List.find?_cons_of_neg (p := fun q0 => q0.1 == p) rest hqp] at hf
        exact hf
      have hndm : List.Nodup (q.1 :: rest.map Prod.fst) := by
        rw [List.map_cons] at hnd
        exact hnd
      have hnd2 := (List.nodup_cons.mp hndm).2
      rw [ih _ hnd2 hf2]
      have hqp2 : q.1 ≠ p := fun he => hqp (by simp [he])
      cases hc : cols[q.1]? with
      | none => simp only [hc]
      | some col2 =>
        simp only [hc]
        by_cases htc : (!q.2.isNull && (value_type q.2 != col2.type)) = true
        · rw [if_pos htc]
        · rw [if_neg htc]
          exact List.getElem?_set_ne hqp2

/-- C2 amended: in the no-`remove` fragment — tables built by the `Table`
constructor and mutated only by `insert_row` and `update` (`ReachIU`) — a table
whose primary-key column has type `Int` or `Text` never holds two rows with
equal values in the primary-key column: the index maps each live row's key to
its own position, so equal keys force equal positions.  (`Table::remove`
breaks this, as the C2 counterexample shows: it compacts the row sequence
without updating the index, and a later update's uniqueness check can consult
a stale entry naming the row being updated itself and admit a duplicate.) -/
theorem C2_amended_pk_unique_no_remove (T : Table) (hreach : ReachIU T)
    (p : Nat) (col : ColumnDef) (hp : T.primary_key_index = some p)
    (hcol : T.columns[p]? = some col)
    (hty : col.type = ColumnType.Int ∨ col.type = ColumnType.Text)
    (i j : Nat) (ri rj : Row) (v : DBValue)
    (hi : T.rows[i]? = some ri) (hj : T.rows[j]? = some rj)
    (hvi : ri[p]? = some v) (hvj : rj[p]? = some v) : i = j := by
  have hT := TInv_reach hreach
  obtain ⟨col2, hcol2, -, hbr⟩ := hT p hp
  have hce : col2 = col := Option.some.inj (hcol2.symm.trans hcol)
  subst hce
  rcases hbr with ⟨-, tr, -, -, hmap⟩ | ⟨-, tr, -, -, hmap⟩ | ⟨h1, h2⟩
  · obtain ⟨zi, hzi, hfi⟩ := hmap i ri hi
    obtain ⟨zj, hzj, hfj⟩ := hmap j rj hj
    have e1 : DBValue.int zi = v := Option.some.inj (hzi.symm.trans hvi)
    have e2 : DBValue.int zj = v := Option.some.inj (hzj.symm.trans hvj)
    have hz : zi = zj := DBValue.int.inj (e1.trans e2.symm)
    rw [hz] at hfi
    exact Option.some.inj (hfi.symm.trans hfj)
  · obtain ⟨si, hsi, hfi⟩ := hmap i ri hi
    obtain ⟨sj, hsj, hfj⟩ := hmap j rj hj
    have e1 : DBValue.text si = v := Option.some.inj (hsi.symm.trans hvi)
    have e2 : DBValue.text sj = v := Option.some.inj (hsj.symm.trans hvj)
    have hs : si = sj := DBValue.text.inj (e1.trans e2.symm)
    rw [hs] at hfi
    exact Option.some.inj (hfi.symm.trans hfj)
  · rcases hty with hx | hx
    · exact absurd hx h1
    · exact absurd hx h2

theorem C2_amended_pk_unique_no_remove_witness :
    cexTable3.primary_key_index = some 0 ∧
    cexTable3.columns[0]? = some ⟨"id", ColumnType.Int, true, false⟩ ∧
    cexTable3.rows[0]? = some [DBValue.int 1] ∧
    ([DBValue.int 1] : Row)[0]? = some (DBValue.int 1) ∧
    (0 : Nat) = 0 :=
  ⟨rfl, rfl, rfl, rfl,
    C2_amended_pk_unique_no_remove cexTable3
      (ReachIU.ins [DBValue.int 3] (ReachIU.ins [DBValue.int 2]
        (ReachIU.ins [DBValue.int 1] (ReachIU.create "t"
          [⟨"id", ColumnType.Int, true, false⟩]))))
      0 ⟨"id", ColumnType.Int, true, false⟩ rfl rfl (Or.inl rfl)
      0 0 [DBValue.int 1] [DBValue.int 1] (DBValue.int 1) rfl rfl rfl rfl⟩

/-- C6 amended: one iteration of the `Table::update` row loop at row `i` of a
table with primary-key position `p`.  (1) A non-matching row is left alone.
(2) When the assignments do not touch the primary-key column, the assignments
are applied in place and the row is counted.  (3) When they assign the `Int`
primary-key column a value whose variant is not `Int` (including `Null`), the
uniqueness check's `std::get` throws `bad_variant_access`, aborting the call —
the field is not silently skipped.  (4) When they assign it an `Int` key that
the index maps to a different row, the row is skipped entirely and not
counted.  (5) When they assign it an `Int` key the index does not know, the
assignments are applied, the row is counted, and the index learns
key ↦ `i`.  (6) A mismatched value for any non-primary-key column is
silently skipped for that one field: the field keeps its old value. -/
theorem C6_amended_update_row_semantics
    (cmap : List (Nat × DBValue)) (conds : List Condition)
    (st : Table × Nat) (i p : Nat) (row : Row)
    (hrow : st.1.rows[i]? = some row)
    (hpko : st.1.primary_key_index = some p) :
    (st.1.row_matches row conds = false →
      updateRowStep cmap conds st i = .ok st) ∧
    (st.1.row_matches row conds = true → assocFind cmap p = none →
      updateRowStep cmap conds st i
        = .ok ({ st.1 with rows := st.1.rows.set i (applyAssignments st.1.columns cmap row) }, st.2 + 1)) ∧
    (∀ newPk, st.1.row_matches row conds = true →
      st.1.columns[p]?.map (fun c => c.type) = some ColumnType.Int →
      assocFind cmap p = some newPk →
      (∀ z, newPk ≠ DBValue.int z) →
      updateRowStep cmap conds st i = .error DBErr.badVariantAccess) ∧
    (∀ z tr j, st.1.row_matches row conds = true →
      st.1.columns[p]?.map (fun c => c.type) = some ColumnType.Int →
      assocFind cmap p = some (DBValue.int z) →
      st.1.int_index = some tr → treeFind tr z = some j → j ≠ i →
      updateRowStep cmap conds st i = .ok st) ∧
    (∀ z tr, st.1.row_matches row conds = true →
      st.1.columns[p]?.map (fun c => c.type) = some ColumnType.Int →
      assocFind cmap p = some (DBValue.int z) →
      st.1.int_index = some tr → treeFind tr z = none →
      p < row.length → List.Nodup (cmap.map Prod.fst) →
      updateRowStep cmap conds st i
        = .ok ({ st.1 with rows := st.1.rows.set i (applyAssignments st.1.columns cmap row), int_index := some (treeInsert tr z i) }, st.2 + 1)) ∧
    (∀ j cj w, st.1.columns[j]? = some cj → assocFind cmap j = some w →
      List.Nodup (cmap.map Prod.fst) →
      (!w.isNull && (value_type w != cj.type)) = true →
      (applyAssignments st.1.columns cmap row)[j]? = row[j]?) := by
  refine ⟨?_, ?_, ?_, ?_, ?_, ?_⟩
  · intro hm
    unfold updateRowStep
    simp only [hrow, hm]
    rw [if_neg Bool.false_ne_true]
  · intro hm haf
    unfold updateRowStep
    simp only [hrow]
    rw [if_pos hm]
    simp only [hpko, haf]
    rw [updateRowApply_false]
    simp only [hpko]
  · intro newPk hm hmapty haf hne
    unfold updateRowStep
    simp only [hrow]
    rw [if_pos hm]
    simp only [hpko, haf, hmapty]
    have hget : getDBInt newPk = .error DBErr.badVariantAccess := by
      cases newPk with
      | int z => exact absurd rfl (hne z)
      | null => rfl
      | flt q => rfl
      | text s => rfl
    simp only [hget]
  · intro z tr j hm hmapty haf hii hfd hji
    unfold updateRowStep
    simp only [hrow]
    rw [if_pos hm]
    simp only [hpko, haf, hmapty, getDBInt, hii, hfd]
    rw [if_pos hji]
  · intro z tr hm hmapty haf hii hfd hplen hnd
    obtain ⟨col, hcolq⟩ : ∃ c, st.1.columns[p]? = some c := by
      cases hcq : st.1.columns[p]? with
      | none => rw [hcq] at hmapty; cases hmapty
      | some c => exact ⟨c, rfl⟩
    have htyc : col.type = ColumnType.Int := by
      rw [hcolq] at hmapty
      exact Option.some.inj hmapty
    have hstep : updateRowStep cmap conds st i = updateRowApply cmap true st i row
        := by
      unfold updateRowStep
      simp only [hrow]
      rw [if_pos hm]
      simp only [hpko, haf, hmapty, getDBInt, hii, hfd]
    rw [hstep]
    have hok : (!(DBValue.int z).isNull
        && (value_type (DBValue.int z) != col.type)) = false := by
      rw [htyc]; rfl
    have hkey1 : (applyAssignments st.1.columns cmap row)[p]? =
        some (DBValue.int z) :=
      applyAssignments_assigned st.1.columns hcolq hok cmap row hnd haf hplen
    rw [updateRowApply_true_pk hpko hkey1]
    have hui := update_index_int
      (T := { st.1 with rows := st.1.rows.set i (applyAssignments st.1.columns cmap row) })
      (r := i) (z := z) hpko hcolq htyc hii rfl
    simp only [hui]
  · intro j cj w hcolj haf hnd hbad
    exact applyAssignments_skipped st.1.columns hcolj hbad cmap row hnd haf

theorem C6_amended_update_row_semantics_witness :
    ((cexTable0.insert_row [DBValue.int 1]).1.rows[0]? = some [DBValue.int 1]) ∧
    ((cexTable0.insert_row [DBValue.int 1]).1.primary_key_index = some 0) ∧
    updateRowStep [(0, DBValue.text "x")] []
        ((cexTable0.insert_row [DBValue.int 1]).1, 0) 0
      = Except.error DBErr.badVariantAccess :=
  ⟨rfl, rfl,
    (C6_amended_update_row_semantics [(0, DBValue.text "x")] []
        ((cexTable0.insert_row [DBValue.int 1]).1, 0) 0 0 [DBValue.int 1]
        rfl rfl).2.2.1
      (DBValue.text "x") rfl rfl rfl
      (fun z h => DBValue.noConfusion h)⟩

end ToyDB
